import Mathlib

/-!
Shallow embedding of the replication-state engine of `rusty_replicon`
(`src/main.rs`, canonical `Cell` implementation; the merge pass is shared
verbatim with `Genome::replicate_and_merge` in `src/main_basic.rs`).

The `replication_state` vector of the Rust code is modelled as a `List Nat`.
All in-place loops of the source are modelled as folds over the same index
ranges the Rust `for` loops traverse, performing the same `set`/read
operations; `vec[i]` reads are modelled by `List.getD v i 0` (every read in
the source is in bounds in reachable states, where the two coincide).
Randomness is modelled nondeterministically: the sampled initiation position
becomes an explicit argument, constrained exactly as the sampler constrains
it (a uniform draw inside a non-empty odd-indexed, i.e. unreplicated,
segment).  The `panic!` on an out-of-range query in `is_replicated` is
modelled by an `Option` result (`none` = panic).
-/

namespace RustyReplicon

/-- `CellState` from `src/main.rs` (lines 10-14). -/
inductive CellState where
  | GPhase
  | SPhase
deriving Repr, DecidableEq

/-- `Cell` from `src/main.rs` (lines 16-24). -/
structure Cell where
  genome_length : Nat
  num_replicators : Nat
  unassigned_replicators : Nat
  cell_state : CellState
  replication_rate : Nat
  replication_state : List Nat
deriving Repr, DecidableEq

/-- `Cell::new` (`src/main.rs` lines 26-37): a vector of `2*k+3` zeros with
slot 1 holding the whole genome length. -/
def Cell.new (genome_length num_replicators replication_rate : Nat) : Cell :=
  { genome_length := genome_length
    num_replicators := num_replicators
    unassigned_replicators := num_replicators
    cell_state := CellState.GPhase
    replication_rate := replication_rate
    replication_state := (List.replicate (num_replicators * 2 + 3) 0).set 1 genome_length }

/-- The cumulative-sum scan shared by `is_replicated` (lines 46-55) and the
insertion-location search in `assign_replicators` (lines 100-109): walk the
entries, at each index record the index and add the value to the running
cumulative sum, and stop at the first index whose cumulative sum exceeds
`position`.  Returns the pair `(check_index, cumsum)` as left by the loop. -/
def locateGo (position : Nat) : List Nat → Nat → Nat → Nat → Nat × Nat
  | [], checkIndex, cumsum, _ => (checkIndex, cumsum)
  | value :: rest, _, cumsum, ind =>
      if position < cumsum + value then (ind, cumsum + value)
      else locateGo position rest ind (cumsum + value) (ind + 1)

/-- Entry point of the scan: accumulators start at `0` as in the source. -/
def locate (vals : List Nat) (position : Nat) : Nat × Nat :=
  locateGo position vals 0 0 0

/-- `Cell::is_replicated` (`src/main.rs` lines 38-58).  The source panics
when `position >= genome_length`; the panic is modelled as `none`.  The
query borrows the cell immutably and never mutates it, which the embedding
reflects by being a pure function of the cell. -/
def Cell.is_replicated (c : Cell) (position : Nat) : Option Bool :=
  if c.genome_length ≤ position then none
  else some (decide ((locate c.replication_state position).1 % 2 = 0))

/-- Helper for `is_fully_replicated`: all odd-index entries are zero.
The source loop (lines 61-65) returns `false` at the first odd index with a
non-zero value; consuming the list two entries at a time visits exactly the
odd indices. -/
def allOddZero : List Nat → Bool
  | [] => true
  | [_] => true
  | _ :: b :: rest => b = 0 && allOddZero rest

/-- `Cell::is_fully_replicated` (`src/main.rs` lines 59-67). -/
def Cell.is_fully_replicated (c : Cell) : Bool :=
  allOddZero c.replication_state

/-- The weight vector built at the top of `assign_replicators`
(`src/main.rs` lines 74-83): the lengths of the non-empty odd-indexed
(unreplicated) segments, in order.  `WeightedIndex::new` fails exactly when
this vector is empty (all its entries are positive by construction). -/
def regionLengthsGo : List Nat → Nat → List Nat
  | [], _ => []
  | value :: rest, ind =>
      if ind % 2 ≠ 0 ∧ value ≠ 0 then value :: regionLengthsGo rest (ind + 1)
      else regionLengthsGo rest (ind + 1)

/-- Weights of the sampler, starting the index accumulator at zero. -/
def region_lengths (v : List Nat) : List Nat :=
  regionLengthsGo v 0

/-- The in-place right shift of `assign_replicators` (`src/main.rs` lines
114-117): `for index in ((insert_index + 2)..len).rev() { v[index] = v[index - 2] }`,
modelled as a fold over exactly that reversed index range. -/
def shiftRightLoop (v : List Nat) (i0 : Nat) : List Nat :=
  ((List.range' (i0 + 2) (v.length - (i0 + 2))).reverse).foldl
    (fun acc index => acc.set index (acc.getD (index - 2) 0)) v

/-- The in-place left shift used by the merge branch (lines 153-157) and the
genome-start edge case (lines 165-169) of `replicate_and_merge`:
`for step_index in i0..(len - 2) { v[step_index] = v[step_index + 2] }`
followed by zeroing the last two slots. -/
def shiftLeftLoop (v : List Nat) (i0 : Nat) : List Nat :=
  (((List.range' i0 (v.length - 2 - i0)).foldl
    (fun acc index => acc.set index (acc.getD (index + 2) 0)) v).set
      (v.length - 2) 0).set (v.length - 1) 0

/-- The insertion performed for one accepted initiation position inside the
`assign_replicators` loop (`src/main.rs` lines 100-124): locate the
containing segment, compute the flanking lengths, shift everything from the
segment two slots right, write `(left_count, 1, right_count)` over slots
`insert_index`, `insert_index+1`, `insert_index+2`, and consume one
replicator from the quota. -/
def insertState (v : List Nat) (position : Nat) : List Nat :=
  let found := locate v position
  let insert_index := found.1
  let cumsum := found.2
  let current_length := v.getD insert_index 0
  let left_count := position + current_length - cumsum
  let right_count := (cumsum - 1) - position
  let shifted := shiftRightLoop v insert_index
  ((shifted.set (insert_index + 2) right_count).set (insert_index + 1) 1).set
    insert_index left_count

/-- The cell-level insertion: update the segment vector and consume one
replicator (`self.unassigned_replicators -= 1`, line 124). -/
def Cell.insert_origin (c : Cell) (position : Nat) : Cell :=
  { c with
    replication_state := insertState c.replication_state position
    unassigned_replicators := c.unassigned_replicators - 1 }

/-- Lines 136-141 of `src/main.rs`: if the unreplicated slot is non-empty
and the left neighbour is occupied, move `min(gap, rate)` units to the left
neighbour. -/
def growLeft (rate : Nat) (v : List Nat) (index : Nat) : List Nat :=
  if 0 < v.getD index 0 ∧ 0 < v.getD (index - 1) 0 then
    let move_amount := min (v.getD index 0) rate
    (v.set (index - 1) (v.getD (index - 1) 0 + move_amount)).set index
      (v.getD index 0 - move_amount)
  else v

/-- Lines 142-146 of `src/main.rs`: if the right neighbour was occupied on
entry (`rocc`) and the slot still holds length, move `min(gap, rate)` units
to the right neighbour. -/
def growRight (rate : Nat) (rocc : Bool) (v1 : List Nat) (index : Nat) : List Nat :=
  if rocc ∧ 0 < v1.getD index 0 then
    let move_amount := min (v1.getD index 0) rate
    (v1.set (index + 1) (v1.getD (index + 1) 0 + move_amount)).set index
      (v1.getD index 0 - move_amount)
  else v1

/-- Lines 149-161 of `src/main.rs`: if the slot reached zero and both
entry-time neighbours were occupied, absorb the right neighbour into the
left one, compact by the two-slot left shift, and count one merge. -/
def mergeStep (v2 : List Nat) (index : Nat) (locc rocc : Bool) : List Nat × Nat :=
  if v2.getD index 0 = 0 ∧ locc ∧ rocc then
    (shiftLeftLoop (v2.set (index - 1) (v2.getD (index - 1) 0 + v2.getD (index + 1) 0)) index, 1)
  else (v2, 0)

/-- One iteration of the merge-pass loop body of `replicate_and_merge`
(`src/main.rs` lines 130-161) at unreplicated slot `index`: record the
occupancy of the two neighbours, run the left transfer, then the right
transfer, then the merge check. -/
def stepAt (rate : Nat) (v : List Nat) (index : Nat) : List Nat × Nat :=
  let left_occupied := decide (0 < v.getD (index - 1) 0)
  let right_occupied := decide (0 < v.getD (index + 1) 0)
  let v1 := growLeft rate v index
  let v2 := growRight rate right_occupied v1 index
  mergeStep v2 index left_occupied right_occupied

/-- The descending odd-index iteration of `replicate_and_merge`
(`src/main.rs` line 130): `(1..(num_entries - 1)).step_by(2).rev()`.
`List.range' 1 ((n - 1) / 2) 2` is `[1, 3, ...]`, the odd numbers below
`n - 1`, so its reverse is exactly the Rust iterator.  The returned `Nat`
accumulates the number of merge events counted by the pass. -/
def passStep (rate : Nat) (acc : List Nat × Nat) (index : Nat) : List Nat × Nat :=
  let r := stepAt rate acc.1 index
  (r.1, acc.2 + r.2)

def mergePass (rate : Nat) (v : List Nat) : List Nat × Nat :=
  ((List.range' 1 ((v.length - 1) / 2) 2).reverse).foldl (passStep rate) (v, 0)

/-- The genome-start edge case of `replicate_and_merge` (`src/main.rs`
lines 163-170): if both leading slots are zero, compact the leading pair by
the same two-slot left shift.  This collapse is not counted as a merge. -/
def leadingCollapse (v : List Nat) : List Nat :=
  if v.getD 0 0 = 0 ∧ v.getD 1 0 = 0 then shiftLeftLoop v 0 else v

/-- The whole `replicate_and_merge` pass on the raw segment vector,
returning the new vector together with the number of merge events counted.
This is `Cell::replicate_and_merge` of `src/main.rs` (which adds the count
to `unassigned_replicators`) and, identically, the body of
`Genome::replicate_and_merge` of `src/main_basic.rs` (which returns the
count as `num_merged`). -/
def replicate_and_merge_full (v : List Nat) (rate : Nat) : List Nat × Nat :=
  let r := mergePass rate v
  (leadingCollapse r.1, r.2)

/-- `Cell::replicate_and_merge` (`src/main.rs` lines 127-171): run the pass
at the cell's `replication_rate`; each counted merge executes
`self.unassigned_replicators += 1` (line 160). -/
def Cell.replicate_and_merge (c : Cell) : Cell :=
  let r := replicate_and_merge_full c.replication_state c.replication_rate
  { c with
    replication_state := r.1
    unassigned_replicators := c.unassigned_replicators + r.2 }

/-- Sum of the first `j` entries: the cumulative sum in front of storage
slot `j`, i.e. the genome coordinate where segment `j` starts. -/
def sumTo (v : List Nat) (j : Nat) : Nat :=
  (v.take j).sum

/-- Position `p` falls inside storage segment `j` of track `v`:
the coordinate range covered by slot `j` is `[sumTo v j, sumTo v j + v[j])`. -/
def SegContains (v : List Nat) (j p : Nat) : Prop :=
  j < v.length ∧ sumTo v j ≤ p ∧ p < sumTo v j + v.getD j 0

/-- What the sampler of `assign_replicators` guarantees about an accepted
initiation position (`src/main.rs` lines 75-97): it was drawn by
`Uniform::new(cumsum, cumsum + length)` for some odd index with non-zero
length, i.e. it lies inside a non-empty unreplicated segment. -/
def ValidInsertPos (v : List Nat) (p : Nat) : Prop :=
  ∃ j, j % 2 = 1 ∧ SegContains v j p

/-- `Cell::assign_replicators` (`src/main.rs` lines 68-126) with the random
sampling made explicit: `choices` is the stream of accepted initiation
positions, one consumed per placement.  The loop runs while replicators
remain unassigned; when `WeightedIndex::new` fails (no non-empty
unreplicated segment, i.e. `region_lengths` is empty) it returns
immediately, leaving the cell untouched.  An exhausted `choices` stream
also stops the loop (theorems always supply enough choices). -/
def Cell.assign_replicators (c : Cell) : List Nat → Cell
  | [] => c
  | p :: rest =>
      if 0 < c.unassigned_replicators then
        if region_lengths c.replication_state = [] then c
        else Cell.assign_replicators (c.insert_origin p) rest
      else c

/-- One engine mutation: inserting an origin at a position the sampler can
produce (consuming quota), or one grow/merge pass. -/
inductive EngineStep : Cell → Cell → Prop where
  | insert {c : Cell} {p : Nat} : 0 < c.unassigned_replicators →
      ValidInsertPos c.replication_state p → EngineStep c (c.insert_origin p)
  | grow {c : Cell} : EngineStep c c.replicate_and_merge

/-- All states reachable from `c` by engine mutations. -/
def ReachableFrom : Cell → Cell → Prop :=
  Relation.ReflTransGen EngineStep

/-- All states reachable from a freshly created engine. -/
def Reachable (gl k rate : Nat) (c : Cell) : Prop :=
  ReachableFrom (Cell.new gl k rate) c

/-- Even-index and odd-index sums of a track, computed together:
`altSum v = (sum of even slots, sum of odd slots)`. -/
def altSum : List Nat → Nat × Nat
  | [] => (0, 0)
  | a :: rest => ((altSum rest).2 + a, (altSum rest).1)

/-- Total replicated length: the sum of the even-indexed entries. -/
def evenSum (v : List Nat) : Nat := (altSum v).1

/-- Total unreplicated length: the sum of the odd-indexed entries. -/
def oddSum (v : List Nat) : Nat := (altSum v).2

/-- The last `m` slots of the track all hold zero. -/
def TrailZeros (v : List Nat) (m : Nat) : Prop :=
  ∀ i, v.length - m ≤ i → v.getD i 0 = 0

/-! ### Generic list lemmas -/

theorem getD_set (v : List Nat) (j i x : Nat) :
    (v.set j x).getD i 0 = if j = i ∧ j < v.length then x else v.getD i 0 := by
  induction v generalizing i j with
  | nil => simp
  | cons a rest ih =>
    cases j with
    | zero => cases i <;> simp
    | succ j' =>
      cases i with
      | zero => simp
      | succ i' => simpa [Nat.succ_lt_succ_iff] using ih j' i'

theorem getD_oob (v : List Nat) (i : Nat) (h : v.length ≤ i) : v.getD i 0 = 0 :=
  List.getD_eq_default v 0 h

theorem foldl_set_length (g : List Nat → Nat → Nat) (idxs : List Nat) (v : List Nat) :
    (idxs.foldl (fun acc index => acc.set index (g acc index)) v).length = v.length := by
  induction idxs generalizing v with
  | nil => rfl
  | cons a rest ih => simpa using ih (v.set a (g v a))

theorem altSum_nil : altSum [] = (0, 0) := rfl

theorem altSum_cons (a : Nat) (rest : List Nat) :
    altSum (a :: rest) = ((altSum rest).2 + a, (altSum rest).1) := rfl

theorem evenSum_cons (a : Nat) (rest : List Nat) :
    evenSum (a :: rest) = oddSum rest + a := rfl

theorem oddSum_cons (a : Nat) (rest : List Nat) :
    oddSum (a :: rest) = evenSum rest := rfl

theorem sum_eq_evenSum_add_oddSum (v : List Nat) : v.sum = evenSum v + oddSum v := by
  induction v with
  | nil => rfl
  | cons a rest ih =>
    simp only [List.sum_cons, evenSum_cons, oddSum_cons, ih]
    omega

theorem altSum_append (l1 l2 : List Nat) :
    altSum (l1 ++ l2) =
      if l1.length % 2 = 0 then
        ((altSum l1).1 + (altSum l2).1, (altSum l1).2 + (altSum l2).2)
      else
        ((altSum l1).1 + (altSum l2).2, (altSum l1).2 + (altSum l2).1) := by
  induction l1 with
  | nil => simp [altSum]
  | cons a rest ih =>
    simp only [List.cons_append, altSum_cons, ih, List.length_cons]
    rcases Nat.even_or_odd rest.length with h | h
    · have h0 : rest.length % 2 = 0 := Nat.even_iff.mp h
      have h1 : (rest.length + 1) % 2 = 1 := by omega
      simp [h0, h1]
      omega
    · have h0 : rest.length % 2 = 1 := Nat.odd_iff.mp h
      have h1 : (rest.length + 1) % 2 = 0 := by omega
      simp [h0, h1]
      omega

theorem oddSum_append_even (l1 l2 : List Nat) (h : l1.length % 2 = 0) :
    oddSum (l1 ++ l2) = oddSum l1 + oddSum l2 := by
  simp [oddSum, altSum_append, h]

theorem oddSum_append_odd (l1 l2 : List Nat) (h : l1.length % 2 = 1) :
    oddSum (l1 ++ l2) = oddSum l1 + evenSum l2 := by
  simp [oddSum, evenSum, altSum_append, h]

theorem altSum_set (v : List Nat) (j x : Nat) (hj : j < v.length) :
    (j % 2 = 0 → evenSum (v.set j x) + v.getD j 0 = evenSum v + x ∧
      oddSum (v.set j x) = oddSum v) ∧
    (j % 2 = 1 → oddSum (v.set j x) + v.getD j 0 = oddSum v + x ∧
      evenSum (v.set j x) = evenSum v) := by
  induction v generalizing j with
  | nil => simp at hj
  | cons a rest ih =>
    cases j with
    | zero =>
      refine ⟨fun _ => ?_, fun h => by simp at h⟩
      simp [evenSum_cons, oddSum_cons]
      omega
    | succ j' =>
      have hj' : j' < rest.length := by simpa [Nat.succ_lt_succ_iff] using hj
      have IH := ih j' hj'
      constructor
      · intro hpar
        have hpar' : j' % 2 = 1 := by omega
        obtain ⟨h1, h2⟩ := IH.2 hpar'
        simp only [List.set_cons_succ, evenSum_cons, oddSum_cons, List.getD_cons_succ]
        exact ⟨by omega, by omega⟩
      · intro hpar
        have hpar' : j' % 2 = 0 := by omega
        obtain ⟨h1, h2⟩ := IH.1 hpar'
        simp only [List.set_cons_succ, evenSum_cons, oddSum_cons, List.getD_cons_succ]
        exact ⟨by omega, by omega⟩

theorem oddSum_set_odd (v : List Nat) (j x : Nat) (hj : j < v.length) (hpar : j % 2 = 1) :
    oddSum (v.set j x) + v.getD j 0 = oddSum v + x :=
  ((altSum_set v j x hj).2 hpar).1

theorem evenSum_set_odd (v : List Nat) (j x : Nat) (hj : j < v.length) (hpar : j % 2 = 1) :
    evenSum (v.set j x) = evenSum v :=
  ((altSum_set v j x hj).2 hpar).2

theorem oddSum_set_even (v : List Nat) (j x : Nat) (hj : j < v.length) (hpar : j % 2 = 0) :
    oddSum (v.set j x) = oddSum v :=
  ((altSum_set v j x hj).1 hpar).2

theorem getD_le_altSum (v : List Nat) (j : Nat) :
    (j % 2 = 0 → v.getD j 0 ≤ evenSum v) ∧ (j % 2 = 1 → v.getD j 0 ≤ oddSum v) := by
  induction v generalizing j with
  | nil => simp
  | cons a rest ih =>
    cases j with
    | zero =>
      refine ⟨fun _ => ?_, fun h => by simp at h⟩
      simp [evenSum_cons]
    | succ j' =>
      have IH := ih j'
      constructor
      · intro hpar
        have := IH.2 (by omega)
        simp only [List.getD_cons_succ, evenSum_cons]
        omega
      · intro hpar
        have := IH.1 (by omega)
        simpa [List.getD_cons_succ, oddSum_cons] using this

theorem getD_le_oddSum (v : List Nat) (j : Nat) (hpar : j % 2 = 1) :
    v.getD j 0 ≤ oddSum v :=
  (getD_le_altSum v j).2 hpar

theorem getD_take (l : List Nat) (m i : Nat) (h : i < m) :
    (l.take m).getD i 0 = l.getD i 0 := by
  rcases Nat.lt_or_ge i l.length with hl | hl
  · rw [List.getD_eq_getElem _ 0 (by simp [List.length_take]; omega),
      List.getD_eq_getElem _ 0 hl, List.getElem_take]
  · rw [getD_oob _ _ (by simp [List.length_take]; omega), getD_oob _ _ hl]

theorem getD_drop (l : List Nat) (m i : Nat) : (l.drop m).getD i 0 = l.getD (m + i) 0 := by
  rcases Nat.lt_or_ge (m + i) l.length with hl | hl
  · rw [List.getD_eq_getElem _ 0 (by simp [List.length_drop]; omega),
      List.getD_eq_getElem _ 0 hl, List.getElem_drop]
  · rw [getD_oob _ _ (by simp [List.length_drop]; omega), getD_oob _ _ hl]

theorem pairZero_getD (k : Nat) : ([0, 0] : List Nat).getD k 0 = 0 := by
  rcases k with _ | k
  · rfl
  rcases k with _ | k
  · rfl
  · exact getD_oob _ _ (by simp)

/-- Pointwise description of the reversed-range copy-down fold of
`shiftRightLoop`: indices are visited in decreasing order, so every read of
slot `index - 2` still sees the original vector. -/
theorem revShift_getD (a : Nat) (ha : 2 ≤ a) (m : Nat) (v : List Nat) (i : Nat) :
    (((List.range' a m).reverse).foldl
        (fun acc index => acc.set index (acc.getD (index - 2) 0)) v).getD i 0 =
      if a ≤ i ∧ i < a + m ∧ i < v.length then v.getD (i - 2) 0 else v.getD i 0 := by
  induction m generalizing v with
  | zero =>
    rw [if_neg (by omega)]
    rfl
  | succ m ih =>
    rw [List.range'_concat, List.reverse_append]
    simp only [List.reverse_cons, List.reverse_nil, List.nil_append, List.singleton_append,
      List.foldl_cons, one_mul]
    rw [ih (v.set (a + m) (v.getD (a + m - 2) 0))]
    simp only [List.length_set]
    by_cases h1 : a ≤ i ∧ i < a + m ∧ i < v.length
    · rw [if_pos h1, if_pos (by omega), getD_set, if_neg (by omega)]
    · rw [if_neg h1, getD_set]
      by_cases h2 : a + m = i ∧ a + m < v.length
      · rw [if_pos h2, if_pos (by omega)]
        have : a + m - 2 = i - 2 := by omega
        rw [this]
      · rw [if_neg h2, if_neg (by omega)]

/-- Pointwise description of the forward copy-up fold of `shiftLeftLoop`:
indices are visited in increasing order, so every read of slot `index + 2`
still sees the original vector. -/
theorem fwdShift_getD (a m : Nat) (v : List Nat) (i : Nat) :
    ((List.range' a m).foldl
        (fun acc index => acc.set index (acc.getD (index + 2) 0)) v).getD i 0 =
      if a ≤ i ∧ i < a + m ∧ i < v.length then v.getD (i + 2) 0 else v.getD i 0 := by
  induction m generalizing a v with
  | zero =>
    rw [if_neg (by omega)]
    rfl
  | succ m ih =>
    rw [List.range'_succ]
    simp only [List.foldl_cons]
    rw [ih (a + 1) (v.set a (v.getD (a + 2) 0))]
    simp only [List.length_set]
    by_cases h1 : a + 1 ≤ i ∧ i < a + 1 + m ∧ i < v.length
    · rw [if_pos h1, if_pos (by omega), getD_set, if_neg (by omega)]
    · rw [if_neg h1, getD_set]
      by_cases h2 : a = i ∧ a < v.length
      · rw [if_pos h2, if_pos (by omega)]
        rw [h2.1]
      · rw [if_neg h2, if_neg (by omega)]

theorem shiftRightLoop_length (v : List Nat) (i0 : Nat) :
    (shiftRightLoop v i0).length = v.length :=
  foldl_set_length _ _ v

theorem shiftRightLoop_getD (v : List Nat) (i0 i : Nat) :
    (shiftRightLoop v i0).getD i 0 =
      if i0 + 2 ≤ i ∧ i < v.length then v.getD (i - 2) 0 else v.getD i 0 := by
  unfold shiftRightLoop
  rw [revShift_getD (i0 + 2) (by omega) (v.length - (i0 + 2)) v i]
  by_cases h : i0 + 2 ≤ i ∧ i < v.length
  · rw [if_pos (by omega), if_pos h]
  · rw [if_neg (by omega), if_neg h]

theorem shiftLeftLoop_length (v : List Nat) (i0 : Nat) :
    (shiftLeftLoop v i0).length = v.length := by
  unfold shiftLeftLoop
  simp only [List.length_set]
  exact foldl_set_length _ _ v

theorem shiftLeftLoop_getD (v : List Nat) (i0 i : Nat) :
    (shiftLeftLoop v i0).getD i 0 =
      if v.length - 2 ≤ i then 0
      else if i0 ≤ i then v.getD (i + 2) 0
      else v.getD i 0 := by
  unfold shiftLeftLoop
  have hfL : ∀ w : List Nat,
      ((List.range' i0 (v.length - 2 - i0)).foldl
        (fun acc index => acc.set index (acc.getD (index + 2) 0)) w).length = w.length :=
    fun w => foldl_set_length _ _ w
  rw [getD_set, getD_set]
  simp only [List.length_set, hfL v]
  rw [fwdShift_getD]
  by_cases h2 : v.length - 2 ≤ i
  · rw [if_pos h2]
    rcases Nat.lt_or_ge i v.length with hi | hi
    · -- i is one of the two zeroed trailing slots
      by_cases hone : v.length - 1 = i
      · rw [if_pos ⟨hone, by omega⟩]
      · rw [if_neg (by omega), if_pos (by omega)]
    · rw [if_neg (by omega), if_neg (by omega), if_neg (by omega), getD_oob v i hi]
  · rw [if_neg h2, if_neg (by omega), if_neg (by omega)]
    by_cases h3 : i0 ≤ i
    · rw [if_pos h3, if_pos (by omega)]
    · rw [if_neg h3, if_neg (by omega)]

theorem shiftLeftLoop_eq (v : List Nat) (i0 : Nat) (h : i0 + 2 ≤ v.length) :
    shiftLeftLoop v i0 = v.take i0 ++ v.drop (i0 + 2) ++ [0, 0] := by
  apply List.ext_getElem
  · rw [shiftLeftLoop_length]
    simp [List.length_append, List.length_take, List.length_drop]
    omega
  · intro n h1 h2
    rw [← List.getD_eq_getElem _ 0 h1, ← List.getD_eq_getElem _ 0 h2, shiftLeftLoop_getD]
    have hA : (v.take i0).length = i0 := by simp [List.length_take]; omega
    by_cases hn2 : v.length - 2 ≤ n
    · rw [if_pos hn2]
      rw [List.getD_append_right _ _ _ _ (by simp [List.length_append, hA, List.length_drop]; omega)]
      rw [pairZero_getD]
    · rw [if_neg hn2]
      rw [List.getD_append _ _ _ _ (by simp [List.length_append, hA, List.length_drop]; omega)]
      by_cases h3 : i0 ≤ n
      · rw [if_pos h3]
        rw [List.getD_append_right _ _ _ _ (by rw [hA]; omega)]
        rw [hA, getD_drop]
        have : i0 + 2 + (n - i0) = n + 2 := by omega
        rw [this]
      · rw [if_neg h3]
        rw [List.getD_append _ _ _ _ (by rw [hA]; omega)]
        rw [getD_take _ _ _ (by omega)]

/-- Splitting off the two leading entries of a suffix. -/
theorem drop_two_split (v : List Nat) (i0 : Nat) (h : i0 + 2 ≤ v.length) :
    v.drop i0 = v.getD i0 0 :: v.getD (i0 + 1) 0 :: v.drop (i0 + 2) := by
  rw [List.drop_eq_getElem_cons (show i0 < v.length by omega),
    List.drop_eq_getElem_cons (show i0 + 1 < v.length by omega),
    ← List.getD_eq_getElem v 0 (show i0 < v.length by omega),
    ← List.getD_eq_getElem v 0 (show i0 + 1 < v.length by omega)]

theorem shiftLeftLoop_sum (v : List Nat) (i0 : Nat) (h : i0 + 2 ≤ v.length) :
    (shiftLeftLoop v i0).sum + v.getD i0 0 + v.getD (i0 + 1) 0 = v.sum := by
  rw [shiftLeftLoop_eq v i0 h]
  have hv : v.sum = (v.take i0).sum + (v.drop i0).sum := by
    conv_lhs => rw [← List.take_append_drop i0 v]
    rw [List.sum_append]
  rw [hv, drop_two_split v i0 h]
  simp [List.sum_append]
  omega

theorem altSum_append_zeros (B : List Nat) : altSum (B ++ [0, 0]) = altSum B := by
  rw [altSum_append]
  by_cases h : B.length % 2 = 0
  · rw [if_pos h]
    simp [altSum]
  · rw [if_neg h]
    simp [altSum]

/-- Two-slot left compaction at an odd zero slot preserves the unreplicated
total: the removed odd slot holds zero and all later entries keep their
storage parity. -/
theorem shiftLeftLoop_oddSum_odd (v : List Nat) (i0 : Nat) (h : i0 + 2 ≤ v.length)
    (hpar : i0 % 2 = 1) :
    oddSum (shiftLeftLoop v i0) + v.getD i0 0 = oddSum v := by
  rw [shiftLeftLoop_eq v i0 h, List.append_assoc]
  have hA : (v.take i0).length = i0 := by simp [List.length_take]; omega
  rw [oddSum_append_odd _ _ (by rw [hA]; exact hpar)]
  have hz : evenSum (v.drop (i0 + 2) ++ [0, 0]) = evenSum (v.drop (i0 + 2)) := by
    unfold evenSum
    rw [altSum_append_zeros]
  rw [hz]
  conv_rhs => rw [← List.take_append_drop i0 v]
  rw [oddSum_append_odd _ _ (by rw [hA]; exact hpar), drop_two_split v i0 h]
  rw [evenSum_cons, oddSum_cons]
  omega

/-- Two-slot left compaction of the leading pair preserves the unreplicated
total when the leading gap is zero. -/
theorem shiftLeftLoop_oddSum_zero (v : List Nat) (h : 2 ≤ v.length) :
    oddSum (shiftLeftLoop v 0) + v.getD 1 0 = oddSum v := by
  have h0 : v = v.getD 0 0 :: v.getD 1 0 :: v.drop 2 := by
    simpa using drop_two_split v 0 (by omega)
  rw [shiftLeftLoop_eq v 0 (by omega), List.append_assoc]
  simp only [List.take_zero, List.nil_append]
  have hz : oddSum (v.drop 2 ++ [0, 0]) = oddSum (v.drop 2) := by
    unfold oddSum
    rw [altSum_append_zeros]
  rw [hz]
  conv_rhs => rw [h0]
  rw [oddSum_cons, evenSum_cons]

theorem sum_take_succ (v : List Nat) (j : Nat) (hj : j < v.length) :
    (v.take (j + 1)).sum = (v.take j).sum + v.getD j 0 := by
  induction v generalizing j with
  | nil => simp at hj
  | cons a rest ih =>
    cases j with
    | zero => simp
    | succ j' =>
      have hj' : j' < rest.length := by simpa using hj
      simp only [List.take_succ_cons, List.sum_cons, List.getD_cons_succ, ih j' hj']
      omega

theorem sumTo_succ (v : List Nat) (j : Nat) (hj : j < v.length) :
    sumTo v (j + 1) = sumTo v j + v.getD j 0 :=
  sum_take_succ v j hj

/-- The scan loop stops at the first slot whose cumulative sum exceeds the
query position, returning that slot's index and cumulative sum. -/
theorem locateGo_spec (p : Nat) (rest : List Nat) :
    ∀ (j ci cs ind : Nat), j < rest.length →
      cs + (rest.take j).sum ≤ p →
      p < cs + (rest.take j).sum + rest.getD j 0 →
      locateGo p rest ci cs ind = (ind + j, cs + (rest.take (j + 1)).sum) := by
  induction rest with
  | nil => intro j _ _ _ hj; simp at hj
  | cons value r ih =>
    intro j ci cs ind hj hlo hhi
    cases j with
    | zero =>
      simp only [List.take_zero, List.sum_nil, Nat.add_zero, List.getD_cons_zero] at hlo hhi
      unfold locateGo
      rw [if_pos (by omega)]
      simp [List.take_succ_cons]
    | succ j' =>
      have hj' : j' < r.length := by simpa using hj
      simp only [List.take_succ_cons, List.sum_cons, List.getD_cons_succ] at hlo hhi
      unfold locateGo
      rw [if_neg (by omega)]
      rw [ih j' ind (cs + value) (ind + 1) hj' (by omega) (by omega)]
      simp only [List.take_succ_cons, List.sum_cons, Prod.mk.injEq]
      omega

theorem locate_finds (v : List Nat) (j p : Nat) (h : SegContains v j p) :
    locate v p = (j, sumTo v j + v.getD j 0) := by
  obtain ⟨hj, hlo, hhi⟩ := h
  unfold locate
  rw [locateGo_spec p v j 0 0 0 hj (by simpa [sumTo] using hlo) (by simpa [sumTo] using hhi)]
  rw [sum_take_succ v j hj]
  simp [sumTo]

theorem insertState_getD (v : List Nat) (p j : Nat) (hseg : SegContains v j p)
    (hroom : j + 2 < v.length) (i : Nat) :
    (insertState v p).getD i 0 =
      if i < j then v.getD i 0
      else if i = j then p - sumTo v j
      else if i = j + 1 then 1
      else if i = j + 2 then sumTo v j + v.getD j 0 - (p + 1)
      else if i < v.length then v.getD (i - 2) 0
      else 0 := by
  have hloc : locate v p = (j, sumTo v j + v.getD j 0) := locate_finds v j p hseg
  obtain ⟨hj, hlo, hhi⟩ := hseg
  simp only [insertState, hloc]
  rw [getD_set, getD_set, getD_set]
  simp only [List.length_set, shiftRightLoop_length]
  rw [shiftRightLoop_getD]
  split_ifs <;> first
    | rfl
    | omega
    | (rw [getD_oob v i (by omega)])

theorem drop_one_split (v : List Nat) (i : Nat) (h : i < v.length) :
    v.drop i = v.getD i 0 :: v.drop (i + 1) := by
  rw [List.drop_eq_getElem_cons h, List.getD_eq_getElem v 0 h]

theorem insertState_length (v : List Nat) (p : Nat) :
    (insertState v p).length = v.length := by
  simp only [insertState]
  simp [List.length_set, shiftRightLoop_length]

/-- Surgery form of origin insertion: the containing segment's single entry
is replaced by the three entries `(p - a, 1, b - p - 1)` and all later
entries move two slots right (the last two array entries fall off). -/
theorem insertState_eq (v : List Nat) (p j : Nat) (hseg : SegContains v j p)
    (hroom : j + 3 ≤ v.length) :
    insertState v p =
      v.take j ++ [p - sumTo v j, 1, sumTo v j + v.getD j 0 - (p + 1)] ++
        (v.drop (j + 1)).take (v.length - (j + 3)) := by
  have hA : (v.take j).length = j := by simp [List.length_take]; omega
  apply List.ext_getElem
  · rw [insertState_length]
    simp [List.length_append, List.length_take, List.length_drop]
    omega
  · intro n h1 h2
    rw [← List.getD_eq_getElem _ 0 h1, ← List.getD_eq_getElem _ 0 h2,
      insertState_getD v p j hseg (by omega)]
    rw [insertState_length] at h1
    have hAM : (v.take j ++
        [p - sumTo v j, 1, sumTo v j + v.getD j 0 - (p + 1)]).length = j + 3 := by
      simp [List.length_append, List.length_take]
      omega
    by_cases c1 : n < j
    · rw [if_pos c1, List.getD_append _ _ _ _ (by rw [hAM]; omega),
        List.getD_append _ _ _ _ (by rw [hA]; omega), getD_take _ _ _ (by omega)]
    by_cases c2 : n = j
    · rw [if_neg c1, if_pos c2, List.getD_append _ _ _ _ (by rw [hAM]; omega),
        List.getD_append_right _ _ _ _ (by rw [hA]; omega), hA]
      have hnj : n - j = 0 := by omega
      rw [hnj, List.getD_cons_zero]
    by_cases c3 : n = j + 1
    · rw [if_neg c1, if_neg c2, if_pos c3, List.getD_append _ _ _ _ (by rw [hAM]; omega),
        List.getD_append_right _ _ _ _ (by rw [hA]; omega), hA]
      have hnj : n - j = 1 := by omega
      rw [hnj]
      rfl
    by_cases c4 : n = j + 2
    · rw [if_neg c1, if_neg c2, if_neg c3, if_pos c4, List.getD_append _ _ _ _ (by rw [hAM]; omega),
        List.getD_append_right _ _ _ _ (by rw [hA]; omega), hA]
      have hnj : n - j = 2 := by omega
      rw [hnj]
      rfl
    · rw [if_neg c1, if_neg c2, if_neg c3, if_neg c4, if_pos h1,
        List.getD_append_right _ _ _ _ (by rw [hAM]; omega), hAM,
        getD_take _ _ _ (by omega), getD_drop]
      have hnj : j + 1 + (n - (j + 3)) = n - 2 := by omega
      rw [hnj]

/-- Origin insertion conserves the total tracked length provided the two
slots that fall off the end hold zero. -/
theorem insertState_sum (v : List Nat) (p j : Nat) (hseg : SegContains v j p)
    (hroom : j + 3 ≤ v.length)
    (hz1 : v.getD (v.length - 2) 0 = 0) (hz2 : v.getD (v.length - 1) 0 = 0) :
    (insertState v p).sum = v.sum := by
  have hj : j < v.length := hseg.1
  have hlo : sumTo v j ≤ p := hseg.2.1
  have hhi : p < sumTo v j + v.getD j 0 := hseg.2.2
  rw [insertState_eq v p j hseg hroom]
  have hD : ((v.drop (j + 1)).drop (v.length - (j + 3))).sum = 0 := by
    rw [List.drop_drop]
    have he : j + 1 + (v.length - (j + 3)) = v.length - 2 := by omega
    rw [he, drop_one_split v _ (by omega), drop_one_split v _ (by omega)]
    have he2 : v.length - 2 + 1 = v.length - 1 := by omega
    rw [he2, hz1, hz2]
    have : v.drop (v.length - 1 + 1) = [] := List.drop_eq_nil_of_le (by omega)
    rw [this]
    rfl
  have hv : v.sum = (v.take j).sum + (v.getD j 0 +
      (((v.drop (j + 1)).take (v.length - (j + 3))).sum +
        ((v.drop (j + 1)).drop (v.length - (j + 3))).sum)) := by
    conv_lhs => rw [← List.take_append_drop j v]
    rw [List.sum_append, drop_one_split v j hj, List.sum_cons]
    conv_lhs => rw [← List.take_append_drop (v.length - (j + 3)) (v.drop (j + 1))]
    rw [List.sum_append]
  rw [hv, hD]
  simp only [List.sum_append, List.sum_cons, List.sum_nil]
  omega

theorem altSum_pair (x y : Nat) : altSum [x, y] = (x, y) := by
  simp [altSum]

/-- Origin insertion removes exactly one unit from the unreplicated total
(it becomes the new unit-length replicated point). -/
theorem insertState_oddSum (v : List Nat) (p j : Nat) (hseg : SegContains v j p)
    (hpar : j % 2 = 1) (hroom : j + 3 ≤ v.length)
    (hz1 : v.getD (v.length - 2) 0 = 0) (hz2 : v.getD (v.length - 1) 0 = 0) :
    oddSum (insertState v p) + 1 = oddSum v := by
  have hj : j < v.length := hseg.1
  have hlo : sumTo v j ≤ p := hseg.2.1
  have hhi : p < sumTo v j + v.getD j 0 := hseg.2.2
  rw [insertState_eq v p j hseg hroom, List.append_assoc]
  have hA : (v.take j).length = j := by simp [List.length_take]; omega
  have hD : altSum ((v.drop (j + 1)).drop (v.length - (j + 3))) = (0, 0) := by
    rw [List.drop_drop]
    have he : j + 1 + (v.length - (j + 3)) = v.length - 2 := by omega
    rw [he, drop_one_split v _ (by omega), drop_one_split v _ (by omega)]
    have he2 : v.length - 2 + 1 = v.length - 1 := by omega
    rw [he2, hz1, hz2]
    have : v.drop (v.length - 1 + 1) = [] := List.drop_eq_nil_of_le (by omega)
    rw [this, altSum_pair]
  have hCD : oddSum (v.drop (j + 1)) =
      oddSum ((v.drop (j + 1)).take (v.length - (j + 3))) := by
    conv_lhs => rw [← List.take_append_drop (v.length - (j + 3)) (v.drop (j + 1))]
    rcases Nat.even_or_odd ((v.drop (j + 1)).take (v.length - (j + 3))).length with he | ho
    · rw [oddSum_append_even _ _ (Nat.even_iff.mp he)]
      unfold oddSum
      rw [hD]
      rfl
    · rw [oddSum_append_odd _ _ (Nat.odd_iff.mp ho)]
      unfold evenSum
      rw [hD]
      rfl
  have hL : oddSum (v.take j ++
      ([p - sumTo v j, 1, sumTo v j + v.getD j 0 - (p + 1)] ++
        (v.drop (j + 1)).take (v.length - (j + 3)))) =
      oddSum (v.take j) + ((p - sumTo v j) + (sumTo v j + v.getD j 0 - (p + 1)) +
        oddSum ((v.drop (j + 1)).take (v.length - (j + 3)))) := by
    rw [oddSum_append_odd _ _ (by rw [hA]; exact hpar)]
    have h3 : ([p - sumTo v j, 1, sumTo v j + v.getD j 0 - (p + 1)] : List Nat).length % 2 = 1 := by
      simp
    unfold evenSum
    rw [altSum_append]
    rw [if_neg (by rw [h3]; omega)]
    simp [altSum, oddSum]
    omega
  have hR : oddSum v = oddSum (v.take j) + (v.getD j 0 + oddSum (v.drop (j + 1))) := by
    conv_lhs => rw [← List.take_append_drop j v]
    rw [oddSum_append_odd _ _ (by rw [hA]; exact hpar), drop_one_split v j hj,
      evenSum_cons]
    omega
  rw [hL, hR, hCD]
  omega

theorem sum_set (v : List Nat) (j x : Nat) (hj : j < v.length) :
    (v.set j x).sum + v.getD j 0 = v.sum + x := by
  induction v generalizing j with
  | nil => simp at hj
  | cons a rest ih =>
    cases j with
    | zero =>
      simp only [List.set_cons_zero, List.sum_cons, List.getD_cons_zero]
      omega
    | succ j' =>
      have hj' : j' < rest.length := by simpa using hj
      simp only [List.set_cons_succ, List.sum_cons, List.getD_cons_succ]
      have := ih j' hj'
      omega

/-- A bounded transfer from slot `src` to slot `dst` conserves the total. -/
theorem transfer_sum (v : List Nat) (src dst m : Nat) (hsrc : src < v.length)
    (hdst : dst < v.length) (hne : dst ≠ src) (hm : m ≤ v.getD src 0) :
    ((v.set dst (v.getD dst 0 + m)).set src (v.getD src 0 - m)).sum = v.sum := by
  have h1 := sum_set v dst (v.getD dst 0 + m) hdst
  have h2 := sum_set (v.set dst (v.getD dst 0 + m)) src (v.getD src 0 - m)
    (by simpa using hsrc)
  rw [getD_set, if_neg (by simp [hne])] at h2
  omega

theorem transfer_oddSum (v : List Nat) (src dst m : Nat) (hsrc : src < v.length)
    (hdst : dst < v.length) (hne : dst ≠ src) (hm : m ≤ v.getD src 0)
    (hsp : src % 2 = 1) (hdp : dst % 2 = 0) :
    oddSum ((v.set dst (v.getD dst 0 + m)).set src (v.getD src 0 - m)) + m = oddSum v := by
  have h1 := oddSum_set_even v dst (v.getD dst 0 + m) hdst hdp
  have h2 := oddSum_set_odd (v.set dst (v.getD dst 0 + m)) src (v.getD src 0 - m)
    (by simpa using hsrc) hsp
  rw [getD_set, if_neg (by simp [hne])] at h2
  omega

theorem transfer_getD (v : List Nat) (src dst m i : Nat) (h1 : i ≠ src) (h2 : i ≠ dst) :
    ((v.set dst (v.getD dst 0 + m)).set src (v.getD src 0 - m)).getD i 0 = v.getD i 0 := by
  rw [getD_set, if_neg (by omega), getD_set, if_neg (by omega)]

/-- The merge action at an exhausted slot: absorb the right neighbour into
the left one, then compact.  Conserves the total. -/
theorem absorbShift_sum (v : List Nat) (index : Nat) (h1 : 1 ≤ index)
    (hlen : index + 1 < v.length) (hz : v.getD index 0 = 0) :
    (shiftLeftLoop (v.set (index - 1)
      (v.getD (index - 1) 0 + v.getD (index + 1) 0)) index).sum = v.sum := by
  have hw := sum_set v (index - 1) (v.getD (index - 1) 0 + v.getD (index + 1) 0) (by omega)
  have hs := shiftLeftLoop_sum (v.set (index - 1)
    (v.getD (index - 1) 0 + v.getD (index + 1) 0)) index (by simp; omega)
  rw [getD_set, if_neg (by omega), getD_set, if_neg (by omega)] at hs
  omega

theorem absorbShift_oddSum (v : List Nat) (index : Nat) (hpar : index % 2 = 1)
    (hlen : index + 1 < v.length) (hz : v.getD index 0 = 0) :
    oddSum (shiftLeftLoop (v.set (index - 1)
      (v.getD (index - 1) 0 + v.getD (index + 1) 0)) index) = oddSum v := by
  have h1 : 1 ≤ index := by omega
  have hw := oddSum_set_even v (index - 1) (v.getD (index - 1) 0 + v.getD (index + 1) 0)
    (by omega) (by omega)
  have hs := shiftLeftLoop_oddSum_odd (v.set (index - 1)
    (v.getD (index - 1) 0 + v.getD (index + 1) 0)) index (by simp; omega) hpar
  rw [getD_set, if_neg (by omega)] at hs
  omega

theorem absorbShift_trail (v : List Nat) (index m : Nat) (h1 : 1 ≤ index)
    (hno : index + 1 < v.length - m) (htz : TrailZeros v m) :
    TrailZeros (shiftLeftLoop (v.set (index - 1)
      (v.getD (index - 1) 0 + v.getD (index + 1) 0)) index) (m + 2) := by
  intro i hi
  rw [shiftLeftLoop_length, List.length_set] at hi
  rw [shiftLeftLoop_getD]
  simp only [List.length_set]
  by_cases hc1 : v.length - 2 ≤ i
  · rw [if_pos hc1]
  · rw [if_neg hc1, if_pos (by omega)]
    rw [getD_set, if_neg (by omega)]
    exact htz (i + 2) (by omega)

theorem absorbShift_getD_low (v : List Nat) (index i : Nat)
    (hlen : index + 1 < v.length) (hi : i + 1 < index) :
    (shiftLeftLoop (v.set (index - 1)
      (v.getD (index - 1) 0 + v.getD (index + 1) 0)) index).getD i 0 = v.getD i 0 := by
  rw [shiftLeftLoop_getD]
  simp only [List.length_set]
  rw [if_neg (by omega), if_neg (by omega), getD_set, if_neg (by omega)]

theorem absorbShift_getD_dst (v : List Nat) (index : Nat) (h1 : 1 ≤ index)
    (hlen : index + 1 < v.length) :
    v.getD (index - 1) 0 ≤ (shiftLeftLoop (v.set (index - 1)
      (v.getD (index - 1) 0 + v.getD (index + 1) 0)) index).getD (index - 1) 0 := by
  rw [shiftLeftLoop_getD]
  simp only [List.length_set]
  rw [if_neg (by omega), if_neg (by omega), getD_set, if_pos (by omega)]
  omega

theorem getD_pos_lt (l : List Nat) (i : Nat) (h : 0 < l.getD i 0) : i < l.length := by
  by_contra hc
  rw [getD_oob l i (by omega)] at h
  omega

theorem trail_pos_lt (v : List Nat) (m j : Nat) (htz : TrailZeros v m) (h : 0 < v.getD j 0) :
    j < v.length - m := by
  by_contra hc
  rw [htz j (by omega)] at h
  omega

theorem growLeft_length (rate : Nat) (v : List Nat) (index : Nat) :
    (growLeft rate v index).length = v.length := by
  unfold growLeft
  split_ifs <;> simp

theorem growLeft_sum (rate : Nat) (v : List Nat) (index : Nat) (h1 : 1 ≤ index) :
    (growLeft rate v index).sum = v.sum := by
  unfold growLeft
  split_ifs with h
  · have hs := getD_pos_lt v index h.1
    exact transfer_sum v index (index - 1) _ hs (by omega) (by omega) (Nat.min_le_left _ _)
  · rfl

theorem growLeft_oddSum (rate : Nat) (v : List Nat) (index : Nat) (hpar : index % 2 = 1) :
    oddSum (growLeft rate v index) +
      (if 0 < v.getD index 0 ∧ 0 < v.getD (index - 1) 0 then
        min (v.getD index 0) rate else 0) = oddSum v := by
  unfold growLeft
  split_ifs with h
  · have hs := getD_pos_lt v index h.1
    exact transfer_oddSum v index (index - 1) _ hs (by omega) (by omega)
      (Nat.min_le_left _ _) hpar (by omega)
  · omega

theorem growLeft_getD_mono (rate : Nat) (v : List Nat) (index i : Nat) (hi : i + 1 ≤ index) :
    v.getD i 0 ≤ (growLeft rate v index).getD i 0 := by
  unfold growLeft
  split_ifs with h
  · rw [getD_set, if_neg (by omega), getD_set]
    by_cases hd : index - 1 = i ∧ index - 1 < v.length
    · rw [if_pos hd, ← hd.1]
      omega
    · rw [if_neg hd]
  · exact Nat.le_refl _

theorem growLeft_getD_low (rate : Nat) (v : List Nat) (index i : Nat) (hi : i + 1 < index) :
    (growLeft rate v index).getD i 0 = v.getD i 0 := by
  unfold growLeft
  split_ifs with h
  · rw [getD_set, if_neg (by omega), getD_set, if_neg (by omega)]
  · rfl

theorem growLeft_getD_high (rate : Nat) (v : List Nat) (index i : Nat) (hi : index < i) :
    (growLeft rate v index).getD i 0 = v.getD i 0 := by
  unfold growLeft
  split_ifs with h
  · rw [getD_set, if_neg (by omega), getD_set, if_neg (by omega)]
  · rfl

theorem growLeft_trail (rate : Nat) (v : List Nat) (index m : Nat) (htz : TrailZeros v m) :
    TrailZeros (growLeft rate v index) m := by
  intro i hi
  rw [growLeft_length] at hi
  unfold growLeft
  split_ifs with h
  · have hs := trail_pos_lt v m index htz h.1
    have hd := trail_pos_lt v m (index - 1) htz h.2
    rw [getD_set, if_neg (by omega), getD_set, if_neg (by omega)]
    exact htz i hi
  · exact htz i hi

theorem growRight_length (rate : Nat) (rocc : Bool) (v1 : List Nat) (index : Nat) :
    (growRight rate rocc v1 index).length = v1.length := by
  unfold growRight
  split_ifs <;> simp

theorem growRight_sum (rate : Nat) (rocc : Bool) (v1 : List Nat) (index : Nat)
    (hro : rocc = true → index + 1 < v1.length) :
    (growRight rate rocc v1 index).sum = v1.sum := by
  unfold growRight
  split_ifs with h
  · exact transfer_sum v1 index (index + 1) _ (getD_pos_lt v1 index h.2) (hro h.1)
      (by omega) (Nat.min_le_left _ _)
  · rfl

theorem growRight_oddSum (rate : Nat) (rocc : Bool) (v1 : List Nat) (index : Nat)
    (hpar : index % 2 = 1) (hro : rocc = true → index + 1 < v1.length) :
    oddSum (growRight rate rocc v1 index) +
      (if rocc ∧ 0 < v1.getD index 0 then min (v1.getD index 0) rate else 0) = oddSum v1 := by
  unfold growRight
  split_ifs with h
  · exact transfer_oddSum v1 index (index + 1) _ (getD_pos_lt v1 index h.2) (hro h.1)
      (by omega) (Nat.min_le_left _ _) hpar (by omega)
  · omega

theorem growRight_getD_low (rate : Nat) (rocc : Bool) (v1 : List Nat) (index i : Nat)
    (hi : i < index) :
    (growRight rate rocc v1 index).getD i 0 = v1.getD i 0 := by
  unfold growRight
  split_ifs with h
  · rw [getD_set, if_neg (by omega), getD_set, if_neg (by omega)]
  · rfl

theorem growRight_getD_mono1 (rate : Nat) (rocc : Bool) (v1 : List Nat) (index : Nat) :
    v1.getD (index + 1) 0 ≤ (growRight rate rocc v1 index).getD (index + 1) 0 := by
  unfold growRight
  split_ifs with h
  · rw [getD_set, if_neg (by omega), getD_set]
    by_cases hd : index + 1 = index + 1 ∧ index + 1 < v1.length
    · rw [if_pos hd]
      omega
    · rw [if_neg hd]
  · exact Nat.le_refl _

theorem growRight_trail (rate : Nat) (rocc : Bool) (v1 : List Nat) (index m : Nat)
    (hpos1 : rocc = true → 0 < v1.getD (index + 1) 0) (htz : TrailZeros v1 m) :
    TrailZeros (growRight rate rocc v1 index) m := by
  intro i hi
  rw [growRight_length] at hi
  unfold growRight
  split_ifs with h
  · have hs := trail_pos_lt v1 m index htz h.2
    have hd := trail_pos_lt v1 m (index + 1) htz (hpos1 h.1)
    rw [getD_set, if_neg (by omega), getD_set, if_neg (by omega)]
    exact htz i hi
  · exact htz i hi

theorem mergeStep_length (v2 : List Nat) (index : Nat) (locc rocc : Bool) :
    (mergeStep v2 index locc rocc).1.length = v2.length := by
  unfold mergeStep
  split_ifs <;> simp [shiftLeftLoop_length]

theorem mergeStep_sum (v2 : List Nat) (index : Nat) (locc rocc : Bool) (h1 : 1 ≤ index)
    (hro : rocc = true → index + 1 < v2.length) :
    (mergeStep v2 index locc rocc).1.sum = v2.sum := by
  unfold mergeStep
  split_ifs with h
  · exact absorbShift_sum v2 index h1 (hro h.2.2) h.1
  · rfl

theorem mergeStep_oddSum (v2 : List Nat) (index : Nat) (locc rocc : Bool)
    (hpar : index % 2 = 1) (hro : rocc = true → index + 1 < v2.length) :
    oddSum (mergeStep v2 index locc rocc).1 = oddSum v2 := by
  unfold mergeStep
  split_ifs with h
  · exact absorbShift_oddSum v2 index hpar (hro h.2.2) h.1
  · rfl

theorem mergeStep_trail (v2 : List Nat) (index : Nat) (locc rocc : Bool) (m : Nat)
    (h1 : 1 ≤ index) (hpos : rocc = true → 0 < v2.getD (index + 1) 0)
    (htz : TrailZeros v2 m) :
    TrailZeros (mergeStep v2 index locc rocc).1 (m + 2 * (mergeStep v2 index locc rocc).2) := by
  unfold mergeStep
  split_ifs with h
  · exact absorbShift_trail v2 index m h1 (trail_pos_lt v2 m (index + 1) htz (hpos h.2.2)) htz
  · simpa using htz

theorem mergeStep_getD_low (v2 : List Nat) (index : Nat) (locc rocc : Bool) (i : Nat)
    (hro : rocc = true → index + 1 < v2.length) (hi : i + 1 < index) :
    (mergeStep v2 index locc rocc).1.getD i 0 = v2.getD i 0 := by
  unfold mergeStep
  split_ifs with h
  · exact absorbShift_getD_low v2 index i (hro h.2.2) hi
  · rfl

theorem mergeStep_getD_mono (v2 : List Nat) (index : Nat) (locc rocc : Bool) (i : Nat)
    (h1 : 1 ≤ index) (hro : rocc = true → index + 1 < v2.length) (hi : i + 1 ≤ index) :
    v2.getD i 0 ≤ (mergeStep v2 index locc rocc).1.getD i 0 := by
  unfold mergeStep
  split_ifs with h
  · by_cases hc : i + 1 < index
    · rw [absorbShift_getD_low v2 index i (hro h.2.2) hc]
    · have hieq : i = index - 1 := by omega
      subst hieq
      exact absorbShift_getD_dst v2 index h1 (hro h.2.2)
  · exact Nat.le_refl _

theorem mergeStep_count_le (v2 : List Nat) (index : Nat) (locc rocc : Bool) :
    (mergeStep v2 index locc rocc).2 ≤ 1 := by
  unfold mergeStep
  split_ifs <;> simp

theorem stepAt_length (rate : Nat) (v : List Nat) (index : Nat) :
    (stepAt rate v index).1.length = v.length := by
  simp only [stepAt]
  rw [mergeStep_length, growRight_length, growLeft_length]

theorem stepAt_hro (rate : Nat) (v : List Nat) (index : Nat) :
    decide (0 < v.getD (index + 1) 0) = true →
      index + 1 < (growRight rate (decide (0 < v.getD (index + 1) 0))
        (growLeft rate v index) index).length := by
  intro hr
  rw [growRight_length, growLeft_length]
  exact getD_pos_lt v _ (of_decide_eq_true hr)

theorem stepAt_sum (rate : Nat) (v : List Nat) (index : Nat) (h1 : 1 ≤ index) :
    (stepAt rate v index).1.sum = v.sum := by
  simp only [stepAt]
  rw [mergeStep_sum _ _ _ _ h1 (stepAt_hro rate v index),
    growRight_sum _ _ _ _ (fun hr => by
      rw [growLeft_length]
      exact getD_pos_lt v _ (of_decide_eq_true hr)),
    growLeft_sum _ _ _ h1]

theorem stepAt_oddSum_le (rate : Nat) (v : List Nat) (index : Nat) (hpar : index % 2 = 1) :
    oddSum (stepAt rate v index).1 ≤ oddSum v := by
  simp only [stepAt]
  rw [mergeStep_oddSum _ _ _ _ hpar (stepAt_hro rate v index)]
  have hR := growRight_oddSum rate (decide (0 < v.getD (index + 1) 0))
    (growLeft rate v index) index hpar (fun hr => by
      rw [growLeft_length]
      exact getD_pos_lt v _ (of_decide_eq_true hr))
  have hL := growLeft_oddSum rate v index hpar
  omega

theorem stepAt_oddSum_strict (rate : Nat) (v : List Nat) (index : Nat) (hrate : 1 ≤ rate)
    (hpar : index % 2 = 1) (hpos : 0 < v.getD index 0)
    (hnb : 0 < v.getD (index - 1) 0 ∨ 0 < v.getD (index + 1) 0) :
    oddSum (stepAt rate v index).1 < oddSum v := by
  simp only [stepAt]
  rw [mergeStep_oddSum _ _ _ _ hpar (stepAt_hro rate v index)]
  have hR := growRight_oddSum rate (decide (0 < v.getD (index + 1) 0))
    (growLeft rate v index) index hpar (fun hr => by
      rw [growLeft_length]
      exact getD_pos_lt v _ (of_decide_eq_true hr))
  have hL := growLeft_oddSum rate v index hpar
  by_cases hlo : 0 < v.getD (index - 1) 0
  · rw [if_pos ⟨hpos, hlo⟩] at hL
    omega
  · have hro : 0 < v.getD (index + 1) 0 := by tauto
    have hv1 : growLeft rate v index = v := by
      unfold growLeft
      rw [if_neg (by tauto)]
    rw [hv1] at hR ⊢
    rw [if_pos ⟨decide_eq_true hro, hpos⟩] at hR
    omega

theorem stepAt_trail (rate : Nat) (v : List Nat) (index m : Nat) (hpar : index % 2 = 1)
    (htz : TrailZeros v m) :
    TrailZeros (stepAt rate v index).1 (m + 2 * (stepAt rate v index).2) := by
  simp only [stepAt]
  have h1 : 1 ≤ index := by omega
  have htz1 := growLeft_trail rate v index m htz
  have htz2 := growRight_trail rate (decide (0 < v.getD (index + 1) 0))
    (growLeft rate v index) index m (fun hr => by
      rw [growLeft_getD_high rate v index (index + 1) (by omega)]
      exact of_decide_eq_true hr) htz1
  refine mergeStep_trail _ _ _ _ m h1 (fun hr => ?_) htz2
  calc 0 < v.getD (index + 1) 0 := of_decide_eq_true hr
    _ = (growLeft rate v index).getD (index + 1) 0 :=
        (growLeft_getD_high rate v index (index + 1) (by omega)).symm
    _ ≤ _ := growRight_getD_mono1 _ _ _ _

theorem stepAt_getD_low (rate : Nat) (v : List Nat) (index i : Nat) (hi : i + 1 < index) :
    (stepAt rate v index).1.getD i 0 = v.getD i 0 := by
  simp only [stepAt]
  rw [mergeStep_getD_low _ _ _ _ _ (stepAt_hro rate v index) hi,
    growRight_getD_low _ _ _ _ _ (by omega), growLeft_getD_low _ _ _ _ hi]

theorem stepAt_getD_mono (rate : Nat) (v : List Nat) (index i : Nat) (hi : i + 1 ≤ index) :
    v.getD i 0 ≤ (stepAt rate v index).1.getD i 0 := by
  simp only [stepAt]
  calc v.getD i 0 ≤ (growLeft rate v index).getD i 0 := growLeft_getD_mono _ _ _ _ hi
    _ = (growRight rate (decide (0 < v.getD (index + 1) 0))
          (growLeft rate v index) index).getD i 0 :=
        (growRight_getD_low _ _ _ _ _ (by omega)).symm
    _ ≤ _ := mergeStep_getD_mono _ _ _ _ _ (by omega) (stepAt_hro rate v index) hi

theorem stepAt_count_le (rate : Nat) (v : List Nat) (index : Nat) :
    (stepAt rate v index).2 ≤ 1 := by
  simp only [stepAt]
  exact mergeStep_count_le _ _ _ _

/-- When the right neighbour slot holds zero (a gap at the trailing
extremity of the used range), the step never merges and leaves every slot
from `index + 1` on unchanged. -/
theorem stepAt_right_zero (rate : Nat) (v : List Nat) (index : Nat)
    (hz : v.getD (index + 1) 0 = 0) :
    (stepAt rate v index).2 = 0 ∧
      ∀ i, index + 1 ≤ i → (stepAt rate v index).1.getD i 0 = v.getD i 0 := by
  simp only [stepAt]
  have hdec : decide (0 < v.getD (index + 1) 0) = false := by
    rw [decide_eq_false]
    omega
  rw [hdec]
  have hv2 : growRight rate false (growLeft rate v index) index = growLeft rate v index := by
    unfold growRight
    rw [if_neg (by simp)]
  rw [hv2]
  have hm : mergeStep (growLeft rate v index) index (decide (0 < v.getD (index - 1) 0)) false =
      (growLeft rate v index, 0) := by
    unfold mergeStep
    rw [if_neg (by simp)]
  rw [hm]
  refine ⟨rfl, fun i hi => ?_⟩
  exact growLeft_getD_high rate v index i (by omega)

/-- A zero-length gap flanked by two occupied neighbours is merged and
counted even though no length is transferred in the step. -/
theorem stepAt_zero_gap (rate : Nat) (v : List Nat) (index : Nat) (hz : v.getD index 0 = 0)
    (hl : 0 < v.getD (index - 1) 0) (hr : 0 < v.getD (index + 1) 0) :
    (stepAt rate v index).2 = 1 := by
  simp only [stepAt]
  have hv1 : growLeft rate v index = v := by
    unfold growLeft
    rw [if_neg (by omega)]
  rw [hv1]
  have hv2 : growRight rate (decide (0 < v.getD (index + 1) 0)) v index = v := by
    unfold growRight
    rw [if_neg (by omega)]
  rw [hv2]
  unfold mergeStep
  rw [if_pos ⟨hz, decide_eq_true hl, decide_eq_true hr⟩]

/-! ### The merge pass as a fold over the descending odd indices -/

theorem passFold_length (rate : Nat) (idxs : List Nat) :
    ∀ st : List Nat × Nat, (idxs.foldl (passStep rate) st).1.length = st.1.length := by
  induction idxs with
  | nil => intro st; rfl
  | cons a rest ih =>
    intro st
    rw [List.foldl_cons, ih]
    simp only [passStep]
    rw [stepAt_length]

theorem passFold_sum (rate : Nat) (idxs : List Nat) (h : ∀ i ∈ idxs, 1 ≤ i) :
    ∀ st : List Nat × Nat, (idxs.foldl (passStep rate) st).1.sum = st.1.sum := by
  induction idxs with
  | nil => intro st; rfl
  | cons a rest ih =>
    intro st
    rw [List.foldl_cons, ih (fun i hi => h i (by simp [hi]))]
    simp only [passStep]
    rw [stepAt_sum _ _ _ (h a (by simp))]

theorem passFold_oddSum (rate : Nat) (idxs : List Nat) (h : ∀ i ∈ idxs, i % 2 = 1) :
    ∀ st : List Nat × Nat, oddSum (idxs.foldl (passStep rate) st).1 ≤ oddSum st.1 := by
  induction idxs with
  | nil => intro st; exact Nat.le_refl _
  | cons a rest ih =>
    intro st
    rw [List.foldl_cons]
    refine Nat.le_trans (ih (fun i hi => h i (by simp [hi])) _) ?_
    simp only [passStep]
    exact stepAt_oddSum_le _ _ _ (h a (by simp))

theorem passFold_count_mono (rate : Nat) (idxs : List Nat) :
    ∀ st : List Nat × Nat, st.2 ≤ (idxs.foldl (passStep rate) st).2 := by
  induction idxs with
  | nil => intro st; exact Nat.le_refl _
  | cons a rest ih =>
    intro st
    rw [List.foldl_cons]
    refine Nat.le_trans ?_ (ih _)
    simp only [passStep]
    omega

theorem passFold_trail (rate : Nat) (idxs : List Nat) (h : ∀ i ∈ idxs, i % 2 = 1) :
    ∀ (st : List Nat × Nat) (m : Nat), TrailZeros st.1 (m + 2 * st.2) →
      TrailZeros (idxs.foldl (passStep rate) st).1 (m + 2 * (idxs.foldl (passStep rate) st).2) := by
  induction idxs with
  | nil => intro st m htz; exact htz
  | cons a rest ih =>
    intro st m htz
    rw [List.foldl_cons]
    refine ih (fun i hi => h i (by simp [hi])) _ m ?_
    simp only [passStep]
    have := stepAt_trail rate st.1 a (m + 2 * st.2) (h a (by simp)) htz
    have he : m + 2 * st.2 + 2 * (stepAt rate st.1 a).2 =
        m + 2 * (st.2 + (stepAt rate st.1 a).2) := by omega
    rw [he] at this
    exact this

theorem passFold_getD_mono (rate : Nat) (idxs : List Nat) (p : Nat)
    (h : ∀ j ∈ idxs, p + 1 ≤ j) :
    ∀ st : List Nat × Nat, st.1.getD p 0 ≤ (idxs.foldl (passStep rate) st).1.getD p 0 := by
  induction idxs with
  | nil => intro st; exact Nat.le_refl _
  | cons a rest ih =>
    intro st
    rw [List.foldl_cons]
    refine Nat.le_trans ?_ (ih (fun i hi => h i (by simp [hi])) _)
    simp only [passStep]
    exact stepAt_getD_mono _ _ _ _ (h a (by simp))

/-- Every index the merge pass visits is odd and leaves both the slot and
its right neighbour inside the vector. -/
theorem mem_mergeRange (n i : Nat) (h : i ∈ (List.range' 1 ((n - 1) / 2) 2).reverse) :
    i % 2 = 1 ∧ i + 1 < n := by
  rw [List.mem_reverse, List.mem_range'] at h
  obtain ⟨t, ht, rfl⟩ := h
  omega

theorem mergePass_length (rate : Nat) (v : List Nat) :
    (mergePass rate v).1.length = v.length := by
  unfold mergePass
  rw [passFold_length]

theorem mergePass_sum (rate : Nat) (v : List Nat) : (mergePass rate v).1.sum = v.sum := by
  unfold mergePass
  rw [passFold_sum _ _ (fun i hi => by have := mem_mergeRange v.length i hi; omega)]

theorem mergePass_oddSum (rate : Nat) (v : List Nat) :
    oddSum (mergePass rate v).1 ≤ oddSum v := by
  unfold mergePass
  exact passFold_oddSum _ _ (fun i hi => (mem_mergeRange v.length i hi).1) _

theorem mergePass_trail (rate : Nat) (v : List Nat) (m : Nat) (htz : TrailZeros v m) :
    TrailZeros (mergePass rate v).1 (m + 2 * (mergePass rate v).2) := by
  unfold mergePass
  refine passFold_trail _ _ (fun i hi => (mem_mergeRange v.length i hi).1) (v, 0) m ?_
  simpa using htz

theorem leadingCollapse_length (v : List Nat) : (leadingCollapse v).length = v.length := by
  unfold leadingCollapse
  split_ifs
  · rw [shiftLeftLoop_length]
  · rfl

theorem leadingCollapse_sum (v : List Nat) (h : 2 ≤ v.length) :
    (leadingCollapse v).sum = v.sum := by
  unfold leadingCollapse
  split_ifs with hc
  · obtain ⟨h0, h1⟩ := hc
    have hs := shiftLeftLoop_sum v 0 (by omega)
    simp only [Nat.zero_add] at hs
    rw [h0, h1] at hs
    omega
  · rfl

theorem oddSum_short (v : List Nat) (h : v.length ≤ 1) : oddSum v = 0 := by
  match v, h with
  | [], _ => rfl
  | [a], _ => rfl

theorem leadingCollapse_oddSum (v : List Nat) (h : 2 ≤ v.length) :
    oddSum (leadingCollapse v) = oddSum v := by
  unfold leadingCollapse
  split_ifs with hc
  · have := shiftLeftLoop_oddSum_zero v h
    omega
  · rfl

theorem leadingCollapse_oddSum_le (v : List Nat) :
    oddSum (leadingCollapse v) ≤ oddSum v := by
  rcases Nat.lt_or_ge v.length 2 with hlen | hlen
  · have h0 : oddSum (leadingCollapse v) = 0 := by
      refine oddSum_short _ ?_
      rw [leadingCollapse_length]
      omega
    omega
  · rw [leadingCollapse_oddSum v hlen]

theorem leadingCollapse_trail (v : List Nat) (m : Nat) (htz : TrailZeros v m) :
    TrailZeros (leadingCollapse v) m := by
  intro i hi
  rw [leadingCollapse_length] at hi
  unfold leadingCollapse
  split_ifs with hc
  · rw [shiftLeftLoop_getD]
    by_cases h2 : v.length - 2 ≤ i
    · rw [if_pos h2]
    · rw [if_neg h2, if_pos (by omega)]
      exact htz (i + 2) (by omega)
  · exact htz i hi

theorem replicate_and_merge_full_length (v : List Nat) (rate : Nat) :
    (replicate_and_merge_full v rate).1.length = v.length := by
  unfold replicate_and_merge_full
  rw [leadingCollapse_length, mergePass_length]

theorem replicate_and_merge_full_sum (v : List Nat) (rate : Nat) (h : 2 ≤ v.length) :
    (replicate_and_merge_full v rate).1.sum = v.sum := by
  unfold replicate_and_merge_full
  rw [leadingCollapse_sum _ (by rw [mergePass_length]; omega), mergePass_sum]

theorem replicate_and_merge_full_oddSum (v : List Nat) (rate : Nat) :
    oddSum (replicate_and_merge_full v rate).1 ≤ oddSum v := by
  unfold replicate_and_merge_full
  exact Nat.le_trans (leadingCollapse_oddSum_le _) (mergePass_oddSum rate v)

theorem replicate_and_merge_full_trail (v : List Nat) (rate m : Nat) (htz : TrailZeros v m) :
    TrailZeros (replicate_and_merge_full v rate).1
      (m + 2 * (replicate_and_merge_full v rate).2) := by
  unfold replicate_and_merge_full
  exact leadingCollapse_trail _ _ (mergePass_trail rate v m htz)

/-! ### The reachability invariant -/

/-- The structural invariant of reachable engine states: the genome length
is immutable, the backing vector keeps its allocated `2k+3` slots, the
entries always total the genome length, and there are at least two spare
zero slots at the tail per unassigned replicator. -/
def Inv (gl k : Nat) (c : Cell) : Prop :=
  c.genome_length = gl ∧
  c.replication_state.length = 2 * k + 3 ∧
  c.replication_state.sum = gl ∧
  TrailZeros c.replication_state (2 * c.unassigned_replicators)

theorem getD_replicate_zero (n i : Nat) : (List.replicate n (0 : Nat)).getD i 0 = 0 := by
  rcases Nat.lt_or_ge i n with h | h
  · rw [List.getD_eq_getElem _ 0 (by simpa using h), List.getElem_replicate]
  · exact getD_oob _ _ (by simpa using h)

theorem inv_new (gl k rate : Nat) : Inv gl k (Cell.new gl k rate) := by
  refine ⟨rfl, ?_, ?_, ?_⟩
  · simp [Cell.new]
    omega
  · have hs := sum_set (List.replicate (k * 2 + 3) (0 : Nat)) 1 gl
      (by rw [List.length_replicate]; omega)
    simp only [Cell.new]
    rw [getD_replicate_zero] at hs
    simp only [List.sum_replicate, smul_eq_mul, Nat.mul_zero] at hs
    omega
  · intro i hi
    simp only [Cell.new, List.length_set, List.length_replicate] at hi ⊢
    rw [getD_set, if_neg (by omega)]
    exact getD_replicate_zero _ _

theorem inv_insert (gl k : Nat) (c : Cell) (p : Nat) (hInv : Inv gl k c)
    (hu : 0 < c.unassigned_replicators) (hvp : ValidInsertPos c.replication_state p) :
    Inv gl k (c.insert_origin p) := by
  obtain ⟨hg, hlen, hsum, htz⟩ := hInv
  obtain ⟨j, hpar, hseg⟩ := hvp
  have hjpos : 0 < c.replication_state.getD j 0 := by
    obtain ⟨hj, hlo, hhi⟩ := hseg
    omega
  have hjlt : j < c.replication_state.length - 2 * c.unassigned_replicators :=
    trail_pos_lt _ _ _ htz hjpos
  have hroom : j + 3 ≤ c.replication_state.length := by omega
  refine ⟨hg, ?_, ?_, ?_⟩
  · simpa [Cell.insert_origin, insertState_length] using hlen
  · simp only [Cell.insert_origin]
    rw [insertState_sum c.replication_state p j hseg hroom
      (htz _ (by omega)) (htz _ (by omega))]
    exact hsum
  · simp only [Cell.insert_origin]
    intro i hi
    rw [insertState_length] at hi
    rw [insertState_getD c.replication_state p j hseg (by omega) i]
    rw [if_neg (by omega), if_neg (by omega), if_neg (by omega), if_neg (by omega)]
    by_cases hc : i < c.replication_state.length
    · rw [if_pos hc]
      exact htz (i - 2) (by omega)
    · rw [if_neg hc]

theorem inv_grow (gl k : Nat) (c : Cell) (hInv : Inv gl k c) :
    Inv gl k c.replicate_and_merge := by
  obtain ⟨hg, hlen, hsum, htz⟩ := hInv
  refine ⟨hg, ?_, ?_, ?_⟩
  · simpa [Cell.replicate_and_merge, replicate_and_merge_full_length] using hlen
  · simp only [Cell.replicate_and_merge]
    rw [replicate_and_merge_full_sum _ _ (by omega)]
    exact hsum
  · simp only [Cell.replicate_and_merge]
    have := replicate_and_merge_full_trail c.replication_state c.replication_rate
      (2 * c.unassigned_replicators) htz
    have he : 2 * c.unassigned_replicators +
        2 * (replicate_and_merge_full c.replication_state c.replication_rate).2 =
        2 * (c.unassigned_replicators +
          (replicate_and_merge_full c.replication_state c.replication_rate).2) := by omega
    rw [he] at this
    exact this

theorem reachable_inv (gl k rate : Nat) (c : Cell) (h : Reachable gl k rate c) :
    Inv gl k c := by
  induction h with
  | refl => exact inv_new gl k rate
  | tail hsteps hstep ih =>
    cases hstep with
    | insert hu hvp => exact inv_insert gl k _ _ ih hu hvp
    | grow => exact inv_grow gl k _ ih

/-! ### Completeness and the sampler's degenerate case -/

instance (v : List Nat) (j p : Nat) : Decidable (SegContains v j p) := by
  unfold SegContains
  infer_instance

theorem allOddZero_getD : ∀ (v : List Nat), allOddZero v = true →
    ∀ i, i % 2 = 1 → v.getD i 0 = 0
  | [], _, i, _ => by simp
  | [a], _, i, hi => getD_oob _ _ (by simp; omega)
  | a :: b :: rest, h, i, hi => by
      simp only [allOddZero, Bool.and_eq_true, decide_eq_true_eq] at h
      match i, hi with
      | 1, _ => simpa using h.1
      | (i' + 2), hi =>
          have := allOddZero_getD rest h.2 i' (by omega)
          simpa using this

theorem allOddZero_iff_oddSum : ∀ v : List Nat, allOddZero v = true ↔ oddSum v = 0
  | [] => by simp [allOddZero, oddSum, altSum]
  | [a] => by simp [allOddZero, oddSum, altSum]
  | a :: b :: rest => by
      simp only [allOddZero, Bool.and_eq_true, decide_eq_true_eq]
      rw [oddSum_cons, evenSum_cons, allOddZero_iff_oddSum rest]
      omega

theorem regionLengthsGo_nil (v : List Nat) :
    ∀ ind, (∀ i, (ind + i) % 2 = 1 → v.getD i 0 = 0) → regionLengthsGo v ind = [] := by
  induction v with
  | nil => intro ind _; rfl
  | cons a rest ih =>
    intro ind h
    unfold regionLengthsGo
    rw [if_neg ?_]
    · refine ih (ind + 1) (fun i hi => ?_)
      have := h (i + 1) (by omega)
      simpa using this
    · intro hcon
      have ha : a = 0 := by
        have := h 0 (by omega)
        simpa using this
      exact hcon.2 ha

theorem region_lengths_nil (v : List Nat) (h : allOddZero v = true) :
    region_lengths v = [] :=
  regionLengthsGo_nil v 0 (fun i hi => allOddZero_getD v h i (by simpa using hi))

theorem take_congr_getD (a b : List Nat) (j : Nat) (hja : j ≤ a.length) (hjb : j ≤ b.length)
    (h : ∀ i, i < j → a.getD i 0 = b.getD i 0) : a.take j = b.take j := by
  apply List.ext_getElem
  · simp [List.length_take]
    omega
  · intro n h1 h2
    rw [List.length_take] at h1
    rw [List.getElem_take, List.getElem_take,
      ← List.getD_eq_getElem a 0 (by omega), ← List.getD_eq_getElem b 0 (by omega)]
    exact h n (by omega)

/-- After a split at `p`, the new unit segment at slot `j + 1` covers
exactly the coordinate `p`. -/
theorem insertState_seg_new (v : List Nat) (p j : Nat) (hpar : j % 2 = 1)
    (hseg : SegContains v j p) (hroom : j + 3 ≤ v.length) :
    SegContains (insertState v p) (j + 1) p ∧
      sumTo (insertState v p) (j + 1) = p := by
  have hlen' : (insertState v p).length = v.length := insertState_length v p
  obtain ⟨hj, hlo, hhi⟩ := hseg
  have hpre : sumTo (insertState v p) j = sumTo v j := by
    unfold sumTo
    rw [take_congr_getD (insertState v p) v j (by omega) (by omega)
      (fun i hij => by
        rw [insertState_getD v p j ⟨hj, hlo, hhi⟩ (by omega) i, if_pos hij])]
  have hatj : (insertState v p).getD j 0 = p - sumTo v j := by
    rw [insertState_getD v p j ⟨hj, hlo, hhi⟩ (by omega) j, if_neg (by omega), if_pos rfl]
  have hatj1 : (insertState v p).getD (j + 1) 0 = 1 := by
    rw [insertState_getD v p j ⟨hj, hlo, hhi⟩ (by omega) (j + 1), if_neg (by omega),
      if_neg (by omega), if_pos rfl]
  have hsum1 : sumTo (insertState v p) (j + 1) = p := by
    rw [sumTo_succ _ j (by omega), hpre, hatj]
    omega
  exact ⟨⟨by omega, by omega, by rw [hsum1, hatj1]; omega⟩, hsum1⟩

theorem insert_origin_genome (c : Cell) (p : Nat) :
    (c.insert_origin p).genome_length = c.genome_length := rfl

theorem insert_origin_replication_state (c : Cell) (p : Nat) :
    (c.insert_origin p).replication_state = insertState c.replication_state p := rfl

theorem grow_replication_state (c : Cell) :
    c.replicate_and_merge.replication_state =
      (replicate_and_merge_full c.replication_state c.replication_rate).1 := rfl

theorem grow_quota (c : Cell) :
    c.replicate_and_merge.unassigned_replicators =
      c.unassigned_replicators +
        (replicate_and_merge_full c.replication_state c.replication_rate).2 := rfl

/-! ### The claims -/

/-- C1: for every reachable state of the engine (the initial state and any
sequence of origin insertions and grow/merge passes), the sum of all
entries of the `replication_state` vector equals `genome_length`; in
particular the two-slot right shift of origin insertion and the two-slot
left shifts of merging and of the leading-pair collapse never change the
total. -/
theorem C1_conservation (gl k rate : Nat) (c : Cell) (h : Reachable gl k rate c) :
    c.replication_state.sum = gl :=
  (reachable_inv gl k rate c h).2.2.1

theorem C1_conservation_witness :
    (((Cell.new 10 2 1).insert_origin 4).replicate_and_merge).replication_state.sum = 10 :=
  C1_conservation 10 2 1 _
    (Relation.ReflTransGen.tail
      (Relation.ReflTransGen.tail Relation.ReflTransGen.refl
        (EngineStep.insert (by decide) ⟨1, by decide⟩))
      EngineStep.grow)

/-- C2: inserting an origin at position `p` inside the non-empty
unreplicated segment at slot `j` spanning `[a, b)` replaces that segment's
single entry by the three entries `p - a`, `1`, `b - p - 1` in that order
(so later entries move two slots right), and `contains p` returns `true`
immediately afterwards. -/
theorem C2_split (c : Cell) (j p : Nat) (hpar : j % 2 = 1)
    (hseg : SegContains c.replication_state j p)
    (hroom : j + 3 ≤ c.replication_state.length)
    (hp : p < c.genome_length) :
    (c.insert_origin p).replication_state =
      c.replication_state.take j ++
        [p - sumTo c.replication_state j, 1,
          sumTo c.replication_state j + c.replication_state.getD j 0 - (p + 1)] ++
        (c.replication_state.drop (j + 1)).take (c.replication_state.length - (j + 3)) ∧
    (c.insert_origin p).is_replicated p = some true := by
  constructor
  · rw [insert_origin_replication_state]
    exact insertState_eq c.replication_state p j hseg hroom
  · have hnew := insertState_seg_new c.replication_state p j hpar hseg hroom
    unfold Cell.is_replicated
    rw [insert_origin_genome, if_neg (by omega), insert_origin_replication_state,
      locate_finds _ _ _ hnew.1]
    have h2 : (j + 1) % 2 = 0 := by omega
    simp [h2]

theorem C2_split_witness :
    ((Cell.new 10 2 1).insert_origin 4).replication_state =
      (Cell.new 10 2 1).replication_state.take 1 ++
        [4 - sumTo (Cell.new 10 2 1).replication_state 1, 1,
          sumTo (Cell.new 10 2 1).replication_state 1 +
            (Cell.new 10 2 1).replication_state.getD 1 0 - (4 + 1)] ++
        ((Cell.new 10 2 1).replication_state.drop 2).take
          ((Cell.new 10 2 1).replication_state.length - 4) ∧
    ((Cell.new 10 2 1).insert_origin 4).is_replicated 4 = some true :=
  C2_split (Cell.new 10 2 1) 1 4 (by decide) (by decide) (by decide) (by decide)

/-- C3: on the track `[5, 3, 5, 0, 0]` (replicated 5, unreplicated 3,
replicated 5) one grow/merge pass with rate 4 transfers the whole gap,
leaves the single replicated segment `13 = 5 + 3 + 5`, and reports exactly
one merge event. -/
theorem C3_merge_example :
    replicate_and_merge_full [5, 3, 5, 0, 0] 4 = ([13, 0, 0, 0, 0], 1) := by
  decide

/-- C5: `contains` (a pure query that never mutates the track) resolves to
a Boolean for every position in `[0, genome_length)` — in particular at `0`
and `genome_length - 1` — and signals the domain violation (the source
panics, modelled as `none`) for every position at or beyond
`genome_length`, including `genome_length` itself and any huge
negative-equivalent value. -/
theorem C5_domain (c : Cell) (p : Nat) (hgl : 0 < c.genome_length) :
    (c.is_replicated 0).isSome = true ∧
    (c.is_replicated (c.genome_length - 1)).isSome = true ∧
    c.is_replicated c.genome_length = none ∧
    (p < c.genome_length → (c.is_replicated p).isSome = true) ∧
    (c.genome_length ≤ p → c.is_replicated p = none) := by
  unfold Cell.is_replicated
  refine ⟨?_, ?_, ?_, fun h => ?_, fun h => ?_⟩
  · rw [if_neg (by omega)]
    rfl
  · rw [if_neg (by omega)]
    rfl
  · rw [if_pos (by omega)]
  · rw [if_neg (by omega)]
    rfl
  · rw [if_pos (by omega)]

theorem C5_domain_witness :
    0 < (Cell.new 10 2 1).genome_length ∧
    (((Cell.new 10 2 1).is_replicated 0).isSome = true ∧
      ((Cell.new 10 2 1).is_replicated ((Cell.new 10 2 1).genome_length - 1)).isSome = true ∧
      (Cell.new 10 2 1).is_replicated (Cell.new 10 2 1).genome_length = none ∧
      (3 < (Cell.new 10 2 1).genome_length →
        ((Cell.new 10 2 1).is_replicated 3).isSome = true) ∧
      ((Cell.new 10 2 1).genome_length ≤ 3 →
        (Cell.new 10 2 1).is_replicated 3 = none)) :=
  ⟨by decide, C5_domain (Cell.new 10 2 1) 3 (by decide)⟩

/-- C6: the backing vector is created with exactly `2k+3` slots and never
grows or shrinks in any reachable state; whenever an insertion is possible
(some replicator is still unassigned), the two slots that its two-slot
right shift drops off the end hold zero, so no segment length is lost. -/
theorem C6_capacity (gl k rate : Nat) (c : Cell) (h : Reachable gl k rate c) :
    c.replication_state.length = 2 * k + 3 ∧
      (0 < c.unassigned_replicators →
        c.replication_state.getD (2 * k + 1) 0 = 0 ∧
          c.replication_state.getD (2 * k + 2) 0 = 0) := by
  obtain ⟨hg, hlen, hsum, htz⟩ := reachable_inv gl k rate c h
  exact ⟨hlen, fun hu => ⟨htz _ (by rw [hlen]; omega), htz _ (by rw [hlen]; omega)⟩⟩

theorem C6_capacity_witness :
    ((Cell.new 9 2 1).insert_origin 3).replication_state.length = 2 * 2 + 3 ∧
      (0 < ((Cell.new 9 2 1).insert_origin 3).unassigned_replicators →
        ((Cell.new 9 2 1).insert_origin 3).replication_state.getD (2 * 2 + 1) 0 = 0 ∧
          ((Cell.new 9 2 1).insert_origin 3).replication_state.getD (2 * 2 + 2) 0 = 0) :=
  C6_capacity 9 2 1 _
    (Relation.ReflTransGen.tail Relation.ReflTransGen.refl
      (EngineStep.insert (by decide) ⟨1, by decide⟩))

/-- C7: when the track has no non-empty unreplicated segment, origin
placement finds no sampling weights (`WeightedIndex::new` fails), returns
at once reporting no placement, and leaves the whole cell — track contents
and remaining fork quota — unchanged, whatever accepted positions the
random stream would have offered. -/
theorem C7_degenerate_sampling (c : Cell) (choices : List Nat)
    (h : c.is_fully_replicated = true) :
    c.assign_replicators choices = c := by
  cases choices with
  | nil => rfl
  | cons p rest =>
    unfold Cell.assign_replicators
    rw [region_lengths_nil _ h]
    simp

theorem C7_degenerate_sampling_witness :
    ({ genome_length := 5, num_replicators := 1, unassigned_replicators := 1,
       cell_state := CellState.GPhase, replication_rate := 2,
       replication_state := [5, 0, 0, 0, 0] } : Cell).assign_replicators [3, 1] =
      { genome_length := 5, num_replicators := 1, unassigned_replicators := 1,
        cell_state := CellState.GPhase, replication_rate := 2,
        replication_state := [5, 0, 0, 0, 0] } :=
  C7_degenerate_sampling _ [3, 1] (by decide)

theorem grow_oddSum_cell (c : Cell) :
    oddSum c.replicate_and_merge.replication_state ≤ oddSum c.replication_state := by
  rw [grow_replication_state]
  exact replicate_and_merge_full_oddSum _ _

theorem step_preserves_complete (c c' : Cell) (h : EngineStep c c')
    (hc : c.is_fully_replicated = true) : c'.is_fully_replicated = true := by
  cases h with
  | insert hu hvp =>
      obtain ⟨j, hpar, hseg⟩ := hvp
      exfalso
      have hpos : 0 < c.replication_state.getD j 0 := by
        obtain ⟨hj, hlo, hhi⟩ := hseg
        omega
      have hodd : oddSum c.replication_state = 0 :=
        (allOddZero_iff_oddSum _).mp hc
      have := getD_le_oddSum c.replication_state j hpar
      omega
  | grow =>
      unfold Cell.is_fully_replicated at hc ⊢
      rw [allOddZero_iff_oddSum] at hc ⊢
      have := grow_oddSum_cell c
      omega

/-- C4: the total unreplicated length (sum of the odd-indexed entries)
never increases under a grow/merge pass, whatever the rate, and hence
across any sequence of passes; and once `is_fully_replicated` holds it
holds on every state reachable by further operations (placements are
impossible on a complete track and passes keep the odd total at zero), so
completion is absorbing. -/
theorem C4_monotone_absorbing :
    (∀ (v : List Nat) (rate : Nat),
      oddSum (replicate_and_merge_full v rate).1 ≤ oddSum v) ∧
    (∀ (c : Cell) (n : Nat),
      oddSum (Cell.replicate_and_merge^[n] c).replication_state ≤
        oddSum c.replication_state) ∧
    (∀ c c' : Cell, ReachableFrom c c' → c.is_fully_replicated = true →
      c'.is_fully_replicated = true) := by
  refine ⟨fun v rate => replicate_and_merge_full_oddSum v rate, fun c n => ?_,
    fun c c' h hc => ?_⟩
  · induction n with
    | zero => exact Nat.le_refl _
    | succ n ih =>
        rw [Function.iterate_succ_apply']
        exact Nat.le_trans (grow_oddSum_cell _) ih
  · induction h with
    | refl => exact hc
    | tail hsteps hstep ih => exact step_preserves_complete _ _ hstep ih

theorem C4_monotone_absorbing_witness :
    oddSum (replicate_and_merge_full [5, 3, 5, 0, 0] 4).1 ≤ oddSum [5, 3, 5, 0, 0] ∧
    oddSum (Cell.replicate_and_merge^[2] (Cell.new 10 1 3)).replication_state ≤
      oddSum (Cell.new 10 1 3).replication_state ∧
    ({ genome_length := 7, num_replicators := 1, unassigned_replicators := 0,
       cell_state := CellState.SPhase, replication_rate := 3,
       replication_state := [7, 0, 0, 0, 0] } : Cell).replicate_and_merge.is_fully_replicated =
      true :=
  ⟨C4_monotone_absorbing.1 [5, 3, 5, 0, 0] 4,
   C4_monotone_absorbing.2.1 (Cell.new 10 1 3) 2,
   C4_monotone_absorbing.2.2 _ _ (Relation.ReflTransGen.single EngineStep.grow) (by decide)⟩

/-- C9: when the unreplicated slot being processed has a zero-length right
replicated neighbour (the trailing extremity of the used range), the loop
body performs no merge — no count, no two-slot compaction, no quota refund
— and every slot from the neighbour on is left unchanged, so the
zero-length pair persists at the tail; `is_fully_replicated` still reports
completion afterwards because it inspects only odd-indexed entries, as the
concrete trace `[5, 3, 0, 0, 0]` with rate 10 shows. -/
theorem C9_trailing_gap (rate : Nat) (v : List Nat) (index : Nat)
    (hz : v.getD (index + 1) 0 = 0) :
    ((stepAt rate v index).2 = 0 ∧
      ∀ i, index + 1 ≤ i → (stepAt rate v index).1.getD i 0 = v.getD i 0) ∧
    replicate_and_merge_full [5, 3, 0, 0, 0] 10 = ([8, 0, 0, 0, 0], 0) ∧
    ({ genome_length := 8, num_replicators := 1, unassigned_replicators := 0,
       cell_state := CellState.SPhase, replication_rate := 10,
       replication_state := [5, 3, 0, 0, 0] } : Cell).replicate_and_merge.unassigned_replicators
      = 0 ∧
    ({ genome_length := 8, num_replicators := 1, unassigned_replicators := 0,
       cell_state := CellState.SPhase, replication_rate := 10,
       replication_state := [5, 3, 0, 0, 0] } : Cell).replicate_and_merge.is_fully_replicated
      = true :=
  ⟨stepAt_right_zero rate v index hz, by decide, by decide, by decide⟩

theorem C9_trailing_gap_witness :
    (stepAt 10 [5, 3, 0, 0, 0] 1).2 = 0 ∧
    (stepAt 10 [5, 3, 0, 0, 0] 1).1.getD 2 0 = [5, 3, 0, 0, 0].getD 2 0 :=
  ⟨(C9_trailing_gap 10 [5, 3, 0, 0, 0] 1 (by decide)).1.1,
   (C9_trailing_gap 10 [5, 3, 0, 0, 0] 1 (by decide)).1.2 2 (by decide)⟩

/-- `c10cell`: a mid-run state with a replicated run of 3, an unreplicated
gap of 4 covering coordinates `[3, 7)`, a replicated run of 3, one
unassigned replicator, and replication rate 0 (so no growth can occur). -/
def c10cell : Cell :=
  { genome_length := 10, num_replicators := 2, unassigned_replicators := 1,
    cell_state := CellState.SPhase, replication_rate := 0,
    replication_state := [3, 4, 3, 0, 0, 0, 0] }

/-- C10: inserting an origin at the first (resp. last) position of a
non-empty unreplicated segment leaves a zero-length left (resp. right)
remainder; a zero-length gap lying between two non-empty replicated
segments is merged and counted by the next pass — incrementing the fork
quota — even when the rate is 0 and no fork tip converged by growth, as
the concrete `c10cell` trace shows. -/
theorem C10_zero_remainder_merge :
    (∀ (v : List Nat) (p j : Nat), SegContains v j p → j + 2 < v.length →
      p = sumTo v j → (insertState v p).getD j 0 = 0) ∧
    (∀ (v : List Nat) (p j : Nat), SegContains v j p → j + 2 < v.length →
      p + 1 = sumTo v j + v.getD j 0 → (insertState v p).getD (j + 2) 0 = 0) ∧
    (∀ (rate : Nat) (v : List Nat) (index : Nat), v.getD index 0 = 0 →
      0 < v.getD (index - 1) 0 → 0 < v.getD (index + 1) 0 →
      (stepAt rate v index).2 = 1) ∧
    (c10cell.insert_origin 3).replication_state = [3, 0, 1, 3, 3, 0, 0] ∧
    (c10cell.insert_origin 3).replicate_and_merge.unassigned_replicators =
      (c10cell.insert_origin 3).unassigned_replicators + 1 := by
  refine ⟨?_, ?_, ?_, by decide, by decide⟩
  · intro v p j hseg hroom hp
    rw [insertState_getD v p j hseg hroom j, if_neg (by omega), if_pos rfl]
    omega
  · intro v p j hseg hroom hp
    rw [insertState_getD v p j hseg hroom (j + 2), if_neg (by omega), if_neg (by omega),
      if_neg (by omega), if_pos rfl]
    omega
  · intro rate v index hz hl hr
    exact stepAt_zero_gap rate v index hz hl hr

theorem C10_zero_remainder_merge_witness :
    (insertState [3, 4, 3, 0, 0, 0, 0] 3).getD 1 0 = 0 ∧
    (insertState [2, 4, 1, 0, 0] 5).getD 3 0 = 0 ∧
    (stepAt 0 [3, 0, 1, 3, 3, 0, 0] 1).2 = 1 :=
  ⟨C10_zero_remainder_merge.1 [3, 4, 3, 0, 0, 0, 0] 3 1 (by decide) (by decide) (by decide),
   C10_zero_remainder_merge.2.1 [2, 4, 1, 0, 0] 5 1 (by decide) (by decide) (by decide),
   C10_zero_remainder_merge.2.2.1 0 [3, 0, 1, 3, 3, 0, 0] 1 (by decide) (by decide) (by decide)⟩

/-! ### Structural invariants for convergence (claim C8)

`W1`: every non-empty unreplicated segment other than the leading one has
an occupied left neighbour.  `W2`: a non-empty leading gap has an occupied
neighbour unless nothing has been replicated at all.  Both hold in the
initial state and are preserved by every engine operation; together with a
positive replicated total they force every grow/merge pass to strictly
shrink the unreplicated total when the rate is positive. -/

def W1 (v : List Nat) : Prop :=
  ∀ i, 3 ≤ i → i % 2 = 1 → 0 < v.getD i 0 → 0 < v.getD (i - 1) 0

def W2 (v : List Nat) : Prop :=
  0 < v.getD 1 0 → 0 < v.getD 0 0 ∨ 0 < v.getD 2 0 ∨ evenSum v = 0

theorem W1_mono (v w : List Nat)
    (hodd : ∀ i, i % 2 = 1 → w.getD i 0 ≤ v.getD i 0)
    (heven : ∀ i, i % 2 = 0 → v.getD i 0 ≤ w.getD i 0)
    (h : W1 v) : W1 w := by
  intro i h3 hip hpos
  have h1 := hodd i hip
  have h2 := heven (i - 1) (by omega)
  have := h i h3 hip (by omega)
  omega

theorem growLeft_odd_le (rate : Nat) (v : List Nat) (index : Nat) (hpar : index % 2 = 1)
    (i : Nat) (hip : i % 2 = 1) : (growLeft rate v index).getD i 0 ≤ v.getD i 0 := by
  unfold growLeft
  split_ifs with h
  · rw [getD_set]
    simp only [List.length_set]
    by_cases hii : index = i
    · subst hii
      rw [if_pos ⟨rfl, getD_pos_lt v index h.1⟩]
      omega
    · rw [if_neg (by omega), getD_set, if_neg (by omega)]
  · exact Nat.le_refl _

theorem growLeft_even_ge (rate : Nat) (v : List Nat) (index : Nat) (hpar : index % 2 = 1)
    (i : Nat) (hip : i % 2 = 0) : v.getD i 0 ≤ (growLeft rate v index).getD i 0 := by
  unfold growLeft
  split_ifs with h
  · rw [getD_set, if_neg (by omega), getD_set]
    by_cases hii : index - 1 = i ∧ index - 1 < v.length
    · rw [if_pos hii, ← hii.1]
      omega
    · rw [if_neg hii]
  · exact Nat.le_refl _

theorem growRight_odd_le (rate : Nat) (rocc : Bool) (v1 : List Nat) (index : Nat)
    (hpar : index % 2 = 1) (i : Nat) (hip : i % 2 = 1) :
    (growRight rate rocc v1 index).getD i 0 ≤ v1.getD i 0 := by
  unfold growRight
  split_ifs with h
  · rw [getD_set]
    simp only [List.length_set]
    by_cases hii : index = i
    · subst hii
      rw [if_pos ⟨rfl, getD_pos_lt v1 index h.2⟩]
      omega
    · rw [if_neg (by omega), getD_set, if_neg (by omega)]
  · exact Nat.le_refl _

theorem growRight_even_ge (rate : Nat) (rocc : Bool) (v1 : List Nat) (index : Nat)
    (hpar : index % 2 = 1) (i : Nat) (hip : i % 2 = 0) :
    v1.getD i 0 ≤ (growRight rate rocc v1 index).getD i 0 := by
  unfold growRight
  split_ifs with h
  · rw [getD_set, if_neg (by omega), getD_set]
    by_cases hii : index + 1 = i ∧ index + 1 < v1.length
    · rw [if_pos hii, ← hii.1]
      omega
    · rw [if_neg hii]
  · exact Nat.le_refl _

theorem growLeft_W1 (rate : Nat) (v : List Nat) (index : Nat) (hpar : index % 2 = 1)
    (h : W1 v) : W1 (growLeft rate v index) :=
  W1_mono v _ (growLeft_odd_le rate v index hpar) (growLeft_even_ge rate v index hpar) h

theorem growRight_W1 (rate : Nat) (rocc : Bool) (v1 : List Nat) (index : Nat)
    (hpar : index % 2 = 1) (h : W1 v1) : W1 (growRight rate rocc v1 index) :=
  W1_mono v1 _ (growRight_odd_le rate rocc v1 index hpar)
    (growRight_even_ge rate rocc v1 index hpar) h

theorem growLeft_W2 (rate : Nat) (v : List Nat) (index : Nat) (hpar : index % 2 = 1)
    (hW2 : W2 v) : W2 (growLeft rate v index) := by
  intro h1pos
  have h1v : 0 < v.getD 1 0 :=
    Nat.lt_of_lt_of_le h1pos (growLeft_odd_le rate v index hpar 1 (by omega))
  rcases hW2 h1v with h0 | h2 | hz
  · exact Or.inl (Nat.lt_of_lt_of_le h0 (growLeft_even_ge rate v index hpar 0 (by omega)))
  · exact Or.inr (Or.inl
      (Nat.lt_of_lt_of_le h2 (growLeft_even_ge rate v index hpar 2 (by omega))))
  · have hid : growLeft rate v index = v := by
      unfold growLeft
      rw [if_neg ?_]
      intro hcon
      have := (getD_le_altSum v (index - 1)).1 (by omega)
      omega
    rw [hid]
    exact Or.inr (Or.inr hz)

theorem growRight_W2 (rate : Nat) (rocc : Bool) (v1 : List Nat) (index : Nat)
    (hpar : index % 2 = 1) (hW1 : W1 v1) (hW2 : W2 v1) :
    W2 (growRight rate rocc v1 index) := by
  intro h1pos
  have h1v : 0 < v1.getD 1 0 :=
    Nat.lt_of_lt_of_le h1pos (growRight_odd_le rate rocc v1 index hpar 1 (by omega))
  rcases hW2 h1v with h0 | h2 | hz
  · exact Or.inl (Nat.lt_of_lt_of_le h0 (growRight_even_ge rate rocc v1 index hpar 0 (by omega)))
  · exact Or.inr (Or.inl
      (Nat.lt_of_lt_of_le h2 (growRight_even_ge rate rocc v1 index hpar 2 (by omega))))
  · by_cases hc : rocc = true ∧ 0 < v1.getD index 0
    · by_cases hi3 : 3 ≤ index
      · exfalso
        have := hW1 index hi3 hpar hc.2
        have := (getD_le_altSum v1 (index - 1)).1 (by omega)
        omega
      · have hi1 : index = 1 := by omega
        subst hi1
        by_cases hb : 1 + 1 < v1.length
        · by_cases hm : min (v1.getD 1 0) rate = 0
          · refine Or.inr (Or.inr ?_)
            unfold growRight
            rw [if_pos hc]
            show evenSum ((v1.set (1 + 1) (v1.getD (1 + 1) 0 + min (v1.getD 1 0) rate)).set 1
              (v1.getD 1 0 - min (v1.getD 1 0) rate)) = 0
            have hset2 := ((altSum_set v1 (1 + 1)
              (v1.getD (1 + 1) 0 + min (v1.getD 1 0) rate) hb).1 (by omega)).1
            have hset1 := evenSum_set_odd (v1.set (1 + 1)
              (v1.getD (1 + 1) 0 + min (v1.getD 1 0) rate)) 1
              (v1.getD 1 0 - min (v1.getD 1 0) rate) (by simpa using getD_pos_lt v1 1 h1v)
              (by omega)
            rw [hset1]
            omega
          · refine Or.inr (Or.inl ?_)
            unfold growRight
            rw [if_pos hc]
            show 0 < ((v1.set (1 + 1) (v1.getD (1 + 1) 0 + min (v1.getD 1 0) rate)).set 1
              (v1.getD 1 0 - min (v1.getD 1 0) rate)).getD 2 0
            rw [getD_set, if_neg (by omega), getD_set,
              if_pos ⟨by norm_num, hb⟩]
            omega
        · refine Or.inr (Or.inr ?_)
          unfold growRight
          rw [if_pos hc]
          show evenSum ((v1.set (1 + 1) (v1.getD (1 + 1) 0 + min (v1.getD 1 0) rate)).set 1
            (v1.getD 1 0 - min (v1.getD 1 0) rate)) = 0
          have hinner : v1.set (1 + 1) (v1.getD (1 + 1) 0 + min (v1.getD 1 0) rate) = v1 :=
            List.set_eq_of_length_le (by omega)
          rw [hinner, evenSum_set_odd v1 1 _ (getD_pos_lt v1 1 h1v) (by omega)]
          exact hz
    · have hid : growRight rate rocc v1 index = v1 := by
        unfold growRight
        rw [if_neg hc]
      rw [hid]
      exact Or.inr (Or.inr hz)

/-- Pointwise description of the merge action (absorb right neighbour into
the left one, then compact two slots). -/
theorem absorbShift_getD (v : List Nat) (index i : Nat) (h1 : 1 ≤ index) :
    (shiftLeftLoop (v.set (index - 1)
      (v.getD (index - 1) 0 + v.getD (index + 1) 0)) index).getD i 0 =
      if v.length - 2 ≤ i then 0
      else if index ≤ i then v.getD (i + 2) 0
      else if i = index - 1 then v.getD (index - 1) 0 + v.getD (index + 1) 0
      else v.getD i 0 := by
  rw [shiftLeftLoop_getD]
  simp only [List.length_set]
  by_cases hc1 : v.length - 2 ≤ i
  · rw [if_pos hc1, if_pos hc1]
  · rw [if_neg hc1, if_neg hc1]
    by_cases hc2 : index ≤ i
    · rw [if_pos hc2, if_pos hc2, getD_set, if_neg (by omega)]
    · rw [if_neg hc2, if_neg hc2, getD_set]
      by_cases hc3 : i = index - 1
      · rw [if_pos ⟨hc3.symm, by omega⟩, if_pos hc3]
      · rw [if_neg (by omega), if_neg hc3]

theorem absorbShift_W1 (v : List Nat) (index : Nat) (hpar : index % 2 = 1)
    (_hlen : index + 1 < v.length) (hW : W1 v) :
    W1 (shiftLeftLoop (v.set (index - 1)
      (v.getD (index - 1) 0 + v.getD (index + 1) 0)) index) := by
  intro i h3 hip hpos
  rw [absorbShift_getD v index i (by omega)] at hpos
  rw [absorbShift_getD v index (i - 1) (by omega)]
  by_cases hA : v.length - 2 ≤ i
  · rw [if_pos hA] at hpos
    omega
  rw [if_neg hA] at hpos
  by_cases hB : index ≤ i
  · rw [if_pos hB] at hpos
    have hnext : 0 < v.getD (i + 1) 0 := hW (i + 2) (by omega) (by omega) hpos
    rw [if_neg (by omega)]
    by_cases hB1 : index ≤ i - 1
    · rw [if_pos hB1]
      have he : i - 1 + 2 = i + 1 := by omega
      rw [he]
      exact hnext
    · rw [if_neg hB1, if_pos (by omega)]
      have hii : i = index := by omega
      rw [hii] at hnext
      omega
  · rw [if_neg hB, if_neg (by omega)] at hpos
    have hprev : 0 < v.getD (i - 1) 0 := hW i h3 hip hpos
    rw [if_neg (by omega), if_neg (by omega), if_neg (by omega)]
    exact hprev

theorem absorbShift_W2 (v : List Nat) (index : Nat) (hpar : index % 2 = 1)
    (hlen : index + 1 < v.length) (hro : 0 < v.getD (index + 1) 0)
    (_hW1 : W1 v) (hW2 : W2 v) :
    W2 (shiftLeftLoop (v.set (index - 1)
      (v.getD (index - 1) 0 + v.getD (index + 1) 0)) index) := by
  intro h1pos
  rw [absorbShift_getD v index 1 (by omega)] at h1pos
  by_cases hi1 : index = 1
  · subst hi1
    by_cases hA : v.length - 2 ≤ 1
    · rw [if_pos hA] at h1pos
      omega
    rw [if_neg hA, if_pos (by omega)] at h1pos
    left
    rw [absorbShift_getD v 1 0 (by omega), if_neg (by omega), if_neg (by omega),
      if_pos (by omega)]
    omega
  · have hi3 : 3 ≤ index := by omega
    by_cases hA : v.length - 2 ≤ 1
    · rw [if_pos hA] at h1pos
      omega
    rw [if_neg hA, if_neg (by omega), if_neg (by omega)] at h1pos
    rcases hW2 h1pos with h0 | h2 | hz
    · left
      rw [absorbShift_getD v index 0 (by omega), if_neg (by omega), if_neg (by omega),
        if_neg (by omega)]
      exact h0
    · right
      left
      rw [absorbShift_getD v index 2 (by omega), if_neg (by omega), if_neg (by omega)]
      by_cases hC : 2 = index - 1
      · rw [if_pos hC, ← hC]
        omega
      · rw [if_neg hC]
        exact h2
    · exfalso
      have := (getD_le_altSum v (index + 1)).1 (by omega)
      omega

theorem leadingCollapse_W1 (v : List Nat) (hW : W1 v) : W1 (leadingCollapse v) := by
  unfold leadingCollapse
  split_ifs with hc
  · intro i h3 hip hpos
    rw [shiftLeftLoop_getD] at hpos
    by_cases hA : v.length - 2 ≤ i
    · rw [if_pos hA] at hpos
      omega
    rw [if_neg hA, if_pos (by omega)] at hpos
    have hnext : 0 < v.getD (i + 1) 0 := hW (i + 2) (by omega) (by omega) hpos
    rw [shiftLeftLoop_getD, if_neg (by omega), if_pos (by omega)]
    have he : i - 1 + 2 = i + 1 := by omega
    rw [he]
    exact hnext
  · exact hW

theorem leadingCollapse_W2 (v : List Nat) (hW1 : W1 v) (hW2 : W2 v) :
    W2 (leadingCollapse v) := by
  unfold leadingCollapse
  split_ifs with hc
  · intro h1pos
    rw [shiftLeftLoop_getD] at h1pos
    by_cases hA : v.length - 2 ≤ 1
    · rw [if_pos hA] at h1pos
      omega
    rw [if_neg hA, if_pos (by omega)] at h1pos
    rw [show (1 : Nat) + 2 = 3 from rfl] at h1pos
    left
    rw [shiftLeftLoop_getD, if_neg (by omega), if_pos (by omega),
      show (0 : Nat) + 2 = 2 from rfl]
    have := hW1 3 (by omega) (by omega) h1pos
    rw [show (3 : Nat) - 1 = 2 from rfl] at this
    exact this
  · exact hW2

theorem insert_W1 (v : List Nat) (p j : Nat) (hpar : j % 2 = 1)
    (hseg : SegContains v j p) (hroom : j + 3 ≤ v.length) (hW : W1 v) :
    W1 (insertState v p) := by
  intro i h3 hip hpos
  rw [insertState_getD v p j hseg (by omega) i] at hpos
  by_cases c1 : i < j
  · rw [if_pos c1] at hpos
    rw [insertState_getD v p j hseg (by omega) (i - 1), if_pos (by omega)]
    exact hW i h3 hip hpos
  by_cases c2 : i = j
  · have hvj : 0 < v.getD j 0 := by
      obtain ⟨hj, hlo, hhi⟩ := hseg
      omega
    rw [insertState_getD v p j hseg (by omega) (i - 1), if_pos (by omega)]
    have hres := hW j (by omega) hpar hvj
    rw [← c2] at hres
    exact hres
  by_cases c3 : i = j + 1
  · omega
  by_cases c4 : i = j + 2
  · rw [insertState_getD v p j hseg (by omega) (i - 1), if_neg (by omega), if_neg (by omega),
      if_pos (by omega)]
    omega
  · rw [if_neg c1, if_neg c2, if_neg c3, if_neg c4] at hpos
    by_cases c5 : i < v.length
    · rw [if_pos c5] at hpos
      have hge : j + 4 ≤ i := by omega
      have hprev := hW (i - 2) (by omega) (by omega) hpos
      rw [insertState_getD v p j hseg (by omega) (i - 1), if_neg (by omega), if_neg (by omega),
        if_neg (by omega), if_neg (by omega), if_pos (by omega)]
      have he : i - 2 - 1 = i - 1 - 2 := by omega
      rw [he] at hprev
      exact hprev
    · rw [if_neg c5] at hpos
      omega

theorem insert_W2 (v : List Nat) (p j : Nat) (hpar : j % 2 = 1)
    (hseg : SegContains v j p) (hroom : j + 3 ≤ v.length) (hW1 : W1 v) (hW2 : W2 v) :
    W2 (insertState v p) := by
  intro h1pos
  by_cases hj1 : j = 1
  · subst hj1
    refine Or.inr (Or.inl ?_)
    rw [insertState_getD v p 1 hseg (by omega) 2, if_neg (by omega), if_neg (by omega),
      if_pos (by omega)]
    omega
  · have hj3 : 3 ≤ j := by omega
    rw [insertState_getD v p j hseg (by omega) 1, if_pos (by omega)] at h1pos
    rcases hW2 h1pos with h0 | h2 | hz
    · left
      rw [insertState_getD v p j hseg (by omega) 0, if_pos (by omega)]
      exact h0
    · refine Or.inr (Or.inl ?_)
      rw [insertState_getD v p j hseg (by omega) 2, if_pos (by omega)]
      exact h2
    · exfalso
      have hvj : 0 < v.getD j 0 := by
        obtain ⟨hj, hlo, hhi⟩ := hseg
        omega
      have := hW1 j hj3 hpar hvj
      have := (getD_le_altSum v (j - 1)).1 (by omega)
      omega

theorem stepAt_W1 (rate : Nat) (v : List Nat) (index : Nat) (hpar : index % 2 = 1)
    (hW : W1 v) : W1 (stepAt rate v index).1 := by
  simp only [stepAt]
  unfold mergeStep
  split_ifs with h
  · exact absorbShift_W1 _ index hpar (stepAt_hro rate v index h.2.2)
      (growRight_W1 _ _ _ _ hpar (growLeft_W1 _ _ _ hpar hW))
  · exact growRight_W1 _ _ _ _ hpar (growLeft_W1 _ _ _ hpar hW)

theorem stepAt_W2 (rate : Nat) (v : List Nat) (index : Nat) (hpar : index % 2 = 1)
    (hW1 : W1 v) (hW2 : W2 v) : W2 (stepAt rate v index).1 := by
  simp only [stepAt]
  unfold mergeStep
  split_ifs with h
  · refine absorbShift_W2 _ index hpar (stepAt_hro rate v index h.2.2) ?_
      (growRight_W1 _ _ _ _ hpar (growLeft_W1 _ _ _ hpar hW1))
      (growRight_W2 _ _ _ _ hpar (growLeft_W1 _ _ _ hpar hW1)
        (growLeft_W2 _ _ _ hpar hW2))
    calc 0 < v.getD (index + 1) 0 := of_decide_eq_true h.2.2
      _ = (growLeft rate v index).getD (index + 1) 0 :=
          (growLeft_getD_high rate v index (index + 1) (by omega)).symm
      _ ≤ _ := growRight_getD_mono1 _ _ _ _
  · exact growRight_W2 _ _ _ _ hpar (growLeft_W1 _ _ _ hpar hW1)
      (growLeft_W2 _ _ _ hpar hW2)

theorem passFold_W (rate : Nat) (idxs : List Nat) (h : ∀ i ∈ idxs, i % 2 = 1) :
    ∀ st : List Nat × Nat, W1 st.1 → W2 st.1 →
      W1 (idxs.foldl (passStep rate) st).1 ∧ W2 (idxs.foldl (passStep rate) st).1 := by
  induction idxs with
  | nil => intro st h1 h2; exact ⟨h1, h2⟩
  | cons a rest ih =>
    intro st h1 h2
    rw [List.foldl_cons]
    exact ih (fun i hi => h i (by simp [hi])) _
      (stepAt_W1 _ _ _ (h a (by simp)) h1)
      (stepAt_W2 _ _ _ (h a (by simp)) h1 h2)

theorem grow_W (c : Cell) (hW1 : W1 c.replication_state) (hW2 : W2 c.replication_state) :
    W1 c.replicate_and_merge.replication_state ∧
      W2 c.replicate_and_merge.replication_state := by
  rw [grow_replication_state]
  unfold replicate_and_merge_full mergePass
  have hp := passFold_W c.replication_rate _
    (fun i hi => (mem_mergeRange c.replication_state.length i hi).1)
    (c.replication_state, 0) hW1 hW2
  exact ⟨leadingCollapse_W1 _ hp.1, leadingCollapse_W2 _ hp.1 hp.2⟩

/-- The full convergence invariant carried by the driver model: the
structural invariant plus the gap-neighbour conditions. -/
def DriverInv (gl k : Nat) (c : Cell) : Prop :=
  Inv gl k c ∧ W1 c.replication_state ∧ W2 c.replication_state

theorem driverInv_new (gl k rate : Nat) : DriverInv gl k (Cell.new gl k rate) := by
  refine ⟨inv_new gl k rate, ?_, ?_⟩
  · intro i h3 hip hpos
    exfalso
    simp only [Cell.new] at hpos
    rw [getD_set, if_neg (by omega), getD_replicate_zero] at hpos
    omega
  · intro _
    refine Or.inr (Or.inr ?_)
    -- evenSum of the initial vector is zero: only slot 1 is non-zero
    have : ∀ n : Nat, evenSum (List.replicate n (0 : Nat)) = 0 ∧
        oddSum (List.replicate n (0 : Nat)) = 0 := by
      intro n
      induction n with
      | zero => exact ⟨rfl, rfl⟩
      | succ m ihm =>
          rw [List.replicate_succ, evenSum_cons, oddSum_cons]
          omega
    simp only [Cell.new]
    have hrep := this ((Cell.new gl k rate).num_replicators * 2 + 3)
    have hset := ((altSum_set (List.replicate (k * 2 + 3) (0 : Nat)) 1 gl
      (by rw [List.length_replicate]; omega)).2 (by omega)).2
    rw [hset]
    exact (this (k * 2 + 3)).1

theorem step_props (gl k : Nat) (c c' : Cell) (h : EngineStep c c')
    (hD : DriverInv gl k c) :
    DriverInv gl k c' ∧
      oddSum c'.replication_state ≤ oddSum c.replication_state ∧
      evenSum c.replication_state ≤ evenSum c'.replication_state ∧
      c'.replication_rate = c.replication_rate ∧
      c'.num_replicators = c.num_replicators := by
  obtain ⟨hInv, hW1, hW2⟩ := hD
  obtain ⟨hg, hlen, hsum, htz⟩ := hInv
  cases h with
  | @insert p hu hvp =>
      obtain ⟨j, hpar, hseg⟩ := hvp
      have hjpos : 0 < c.replication_state.getD j 0 := by
        obtain ⟨hj, hlo, hhi⟩ := hseg
        omega
      have hjlt : j < c.replication_state.length - 2 * c.unassigned_replicators :=
        trail_pos_lt _ _ _ htz hjpos
      have hroom : j + 3 ≤ c.replication_state.length := by omega
      have hio := insertState_oddSum c.replication_state p j hseg hpar hroom
        (htz _ (by omega)) (htz _ (by omega))
      have his := insertState_sum c.replication_state p j hseg hroom
        (htz _ (by omega)) (htz _ (by omega))
      have hsplit := sum_eq_evenSum_add_oddSum c.replication_state
      have hsplit' := sum_eq_evenSum_add_oddSum (insertState c.replication_state p)
      refine ⟨⟨inv_insert gl k c _ ⟨hg, hlen, hsum, htz⟩ hu ⟨j, hpar, hseg⟩,
        ?_, ?_⟩, ?_, ?_, rfl, rfl⟩
      · rw [insert_origin_replication_state]
        exact insert_W1 _ _ j hpar hseg hroom hW1
      · rw [insert_origin_replication_state]
        exact insert_W2 _ _ j hpar hseg hroom hW1 hW2
      · rw [insert_origin_replication_state]
        omega
      · rw [insert_origin_replication_state]
        omega
  | grow =>
      have hW := grow_W c hW1 hW2
      have hodd := grow_oddSum_cell c
      have hsum2 : c.replicate_and_merge.replication_state.sum = c.replication_state.sum := by
        rw [grow_replication_state]
        exact replicate_and_merge_full_sum _ _ (by omega)
      have hsplit := sum_eq_evenSum_add_oddSum c.replication_state
      have hsplit' := sum_eq_evenSum_add_oddSum c.replicate_and_merge.replication_state
      exact ⟨⟨inv_grow gl k c ⟨hg, hlen, hsum, htz⟩, hW.1, hW.2⟩, hodd, by omega, rfl, rfl⟩

theorem reach_props (gl k : Nat) (c c' : Cell) (h : ReachableFrom c c')
    (hD : DriverInv gl k c) :
    DriverInv gl k c' ∧
      oddSum c'.replication_state ≤ oddSum c.replication_state ∧
      evenSum c.replication_state ≤ evenSum c'.replication_state ∧
      c'.replication_rate = c.replication_rate := by
  induction h with
  | refl => exact ⟨hD, Nat.le_refl _, Nat.le_refl _, rfl⟩
  | tail hsteps hstep ih =>
      obtain ⟨hD', ho, he, hr⟩ := ih
      obtain ⟨hD'', ho', he', hr', _⟩ := step_props gl k _ _ hstep hD'
      exact ⟨hD'', by omega, by omega, by rw [hr', hr]⟩

theorem oddSum_pos_witness : ∀ (v : List Nat), oddSum v ≠ 0 →
    ∃ i, i % 2 = 1 ∧ 0 < v.getD i 0 ∧ i < v.length
  | [], h => absurd rfl h
  | [_], h => absurd rfl h
  | a :: b :: rest, h => by
      rw [oddSum_cons, evenSum_cons] at h
      by_cases hb : b = 0
      · subst hb
        have hr : oddSum rest ≠ 0 := by omega
        obtain ⟨i, hip, hpos, hl⟩ := oddSum_pos_witness rest hr
        exact ⟨i + 2, by omega, by simpa using hpos, by simp; omega⟩
      · exact ⟨1, by omega, by simpa using Nat.pos_of_ne_zero hb, by simp⟩

/-- With a positive rate, on a track satisfying the gap-neighbour
invariants with something replicated and something unreplicated, one merge
pass strictly shrinks the unreplicated total. -/
theorem mergePass_strict (rate : Nat) (v : List Nat) (hrate : 1 ≤ rate)
    (hlen : v.length % 2 = 1) (hW1 : W1 v) (hW2 : W2 v)
    (hodd : oddSum v ≠ 0) (hev : evenSum v ≠ 0) :
    oddSum (mergePass rate v).1 < oddSum v := by
  obtain ⟨i, hip, hpos, hilen⟩ := oddSum_pos_witness v hodd
  have hi2 : i + 1 < v.length := by omega
  have hit : i = 1 + 2 * ((i - 1) / 2) := by omega
  have htM : (i - 1) / 2 < (v.length - 1) / 2 := by omega
  have hdec : List.range' 1 ((v.length - 1) / 2) 2 =
      (List.range' 1 ((i - 1) / 2) 2 ++ [i]) ++
        List.range' (i + 2) ((v.length - 1) / 2 - (i - 1) / 2 - 1) 2 := by
    have h1 : List.range' 1 ((i - 1) / 2) 2 ++
        List.range' (1 + 2 * ((i - 1) / 2)) ((v.length - 1) / 2 - (i - 1) / 2) 2 =
        List.range' 1 ((v.length - 1) / 2) 2 := by
      have hap := List.range'_append 1 ((i - 1) / 2)
        ((v.length - 1) / 2 - (i - 1) / 2) 2
      rw [show (v.length - 1) / 2 - (i - 1) / 2 + (i - 1) / 2 = (v.length - 1) / 2
        by omega] at hap
      exact hap
    have h2 : List.range' (1 + 2 * ((i - 1) / 2)) ((v.length - 1) / 2 - (i - 1) / 2) 2 =
        (1 + 2 * ((i - 1) / 2)) ::
          List.range' (1 + 2 * ((i - 1) / 2) + 2)
            ((v.length - 1) / 2 - (i - 1) / 2 - 1) 2 := by
      conv_lhs => rw [show (v.length - 1) / 2 - (i - 1) / 2 =
        ((v.length - 1) / 2 - (i - 1) / 2 - 1) + 1 by omega]
      rw [List.range'_succ]
    rw [← h1, h2, ← hit]
    rw [List.append_cons]
  have hrev : (List.range' 1 ((v.length - 1) / 2) 2).reverse =
      ((List.range' (i + 2) ((v.length - 1) / 2 - (i - 1) / 2 - 1) 2).reverse ++ [i]) ++
        (List.range' 1 ((i - 1) / 2) 2).reverse := by
    rw [hdec, List.reverse_append, List.reverse_append]
    simp [List.append_assoc]
  unfold mergePass
  rw [hrev, List.foldl_append, List.foldl_append]
  have hBmem : ∀ j ∈ (List.range' (i + 2)
      ((v.length - 1) / 2 - (i - 1) / 2 - 1) 2).reverse, j % 2 = 1 ∧ i + 2 ≤ j := by
    intro j hj
    rw [List.mem_reverse, List.mem_range'] at hj
    obtain ⟨r, hr, rfl⟩ := hj
    omega
  have hAmem : ∀ j ∈ (List.range' 1 ((i - 1) / 2) 2).reverse, j % 2 = 1 := by
    intro j hj
    rw [List.mem_reverse, List.mem_range'] at hj
    obtain ⟨r, hr, rfl⟩ := hj
    omega
  have hmono_i := passFold_getD_mono rate
    (List.range' (i + 2) ((v.length - 1) / 2 - (i - 1) / 2 - 1) 2).reverse i
    (fun j hj => by have := hBmem j hj; omega) (v, 0)
  have hmono_im := passFold_getD_mono rate
    (List.range' (i + 2) ((v.length - 1) / 2 - (i - 1) / 2 - 1) 2).reverse (i - 1)
    (fun j hj => by have := hBmem j hj; omega) (v, 0)
  have hmono_ip := passFold_getD_mono rate
    (List.range' (i + 2) ((v.length - 1) / 2 - (i - 1) / 2 - 1) 2).reverse (i + 1)
    (fun j hj => by have := hBmem j hj; omega) (v, 0)
  have hodd1 := passFold_oddSum rate
    (List.range' (i + 2) ((v.length - 1) / 2 - (i - 1) / 2 - 1) 2).reverse
    (fun j hj => (hBmem j hj).1) (v, 0)
  have hnb : 0 < ((List.range' (i + 2) ((v.length - 1) / 2 - (i - 1) / 2 - 1) 2).reverse.foldl
      (passStep rate) (v, 0)).1.getD (i - 1) 0 ∨
      0 < ((List.range' (i + 2) ((v.length - 1) / 2 - (i - 1) / 2 - 1) 2).reverse.foldl
      (passStep rate) (v, 0)).1.getD (i + 1) 0 := by
    by_cases h3 : 3 ≤ i
    · exact Or.inl (Nat.lt_of_lt_of_le (hW1 i h3 hip hpos) hmono_im)
    · have hi1 : i = 1 := by omega
      subst hi1
      rcases hW2 hpos with h0 | h2 | hz
      · left
        rw [show (1 : Nat) - 1 = 0 from rfl] at hmono_im ⊢
        exact Nat.lt_of_lt_of_le h0 hmono_im
      · right
        rw [show (1 : Nat) + 1 = 2 from rfl] at hmono_ip ⊢
        exact Nat.lt_of_lt_of_le h2 hmono_ip
      · exact absurd hz hev
  have hstep : oddSum (passStep rate
      ((List.range' (i + 2) ((v.length - 1) / 2 - (i - 1) / 2 - 1) 2).reverse.foldl
        (passStep rate) (v, 0)) i).1 <
      oddSum ((List.range' (i + 2) ((v.length - 1) / 2 - (i - 1) / 2 - 1) 2).reverse.foldl
        (passStep rate) (v, 0)).1 := by
    simp only [passStep]
    exact stepAt_oddSum_strict rate _ i hrate hip
      (Nat.lt_of_lt_of_le hpos hmono_i) hnb
  have hodd3 := passFold_oddSum rate (List.range' 1 ((i - 1) / 2) 2).reverse hAmem
    (passStep rate
      ((List.range' (i + 2) ((v.length - 1) / 2 - (i - 1) / 2 - 1) 2).reverse.foldl
        (passStep rate) (v, 0)) i)
  simp only [List.foldl_cons, List.foldl_nil]
  dsimp only at hmono_i hmono_im hmono_ip hodd1
  omega

/-! ### The driver loop of `full_replication` (claim C8)

`full_replication` (`src/main.rs` lines 185-192) loops
`assign_replicators; replicate_and_merge` until `is_fully_replicated`.
The random draws are abstracted: `draws t` tells whether the
`rng_obj.gen::<f64>() > 0.9` acceptance draw of the sampling loop at time
`t` succeeds, and `posOf c t` is the weighted-uniform position the sampler
would produce at that time (always inside a non-empty unreplicated
segment, which `ValidSampler` records).  Loops are modelled with explicit
fuel: a result of `none` for every fuel value is divergence of the source
loop. -/

def assignFuel (draws : Nat → Bool) (posOf : Cell → Nat → Nat) :
    Cell → Nat → Nat → Option (Cell × Nat)
  | _, _, 0 => none
  | c, t, fuel + 1 =>
      if 0 < c.unassigned_replicators then
        if region_lengths c.replication_state = [] then some (c, t)
        else if draws t then
          assignFuel draws posOf (c.insert_origin (posOf c t)) (t + 1) fuel
        else assignFuel draws posOf c (t + 1) fuel
      else some (c, t)

def driverFuel (draws : Nat → Bool) (posOf : Cell → Nat → Nat) :
    Cell → Nat → Nat → Option Cell
  | c, _, 0 => if c.is_fully_replicated then some c else none
  | c, t, fuel + 1 =>
      if c.is_fully_replicated then some c
      else
        match assignFuel draws posOf c t (fuel + 1) with
        | none => none
        | some (c', t') => driverFuel draws posOf c'.replicate_and_merge t' fuel

/-- The replicating loop of the driver terminates on the given stream. -/
def RunTerminates (draws : Nat → Bool) (posOf : Cell → Nat → Nat) (c : Cell) (t : Nat) :
    Prop :=
  ∃ fuel c', driverFuel draws posOf c t fuel = some c'

/-- Every placement attempt eventually sees an accepting draw. -/
def AcceptsInfinitely (draws : Nat → Bool) : Prop :=
  ∀ t, ∃ s, t ≤ s ∧ draws s = true

/-- What the weighted sampler guarantees whenever weights exist. -/
def ValidSampler (posOf : Cell → Nat → Nat) : Prop :=
  ∀ c t, region_lengths c.replication_state ≠ [] →
    ValidInsertPos c.replication_state (posOf c t)

theorem insert_origin_quota (c : Cell) (p : Nat) :
    (c.insert_origin p).unassigned_replicators = c.unassigned_replicators - 1 := rfl

theorem assignFuel_stuck (posOf : Cell → Nat → Nat) :
    ∀ fuel t, assignFuel (fun _ => false) posOf (Cell.new 10 1 1) t fuel = none := by
  intro fuel
  induction fuel with
  | zero => intro t; rfl
  | succ n ih =>
      intro t
      unfold assignFuel
      rw [if_pos (by decide), if_neg (by decide), if_neg (by simp)]
      exact ih (t + 1)

theorem driverFuel_stuck (posOf : Cell → Nat → Nat) :
    ∀ fuel t, driverFuel (fun _ => false) posOf (Cell.new 10 1 1) t fuel = none := by
  intro fuel
  cases fuel with
  | zero =>
      intro t
      unfold driverFuel
      rw [if_neg (by decide)]
  | succ n =>
      intro t
      unfold driverFuel
      rw [if_neg (by decide), assignFuel_stuck posOf (n + 1) t]

theorem assignFuel_mono (draws : Nat → Bool) (posOf : Cell → Nat → Nat) :
    ∀ fuel fuel' c t r, assignFuel draws posOf c t fuel = some r → fuel ≤ fuel' →
      assignFuel draws posOf c t fuel' = some r := by
  intro fuel
  induction fuel with
  | zero => intro fuel' c t r h _; exact Option.noConfusion h
  | succ n ih =>
      intro fuel' c t r h hle
      obtain ⟨m, rfl⟩ : ∃ m, fuel' = m + 1 := ⟨fuel' - 1, by omega⟩
      unfold assignFuel at h ⊢
      by_cases h1 : 0 < c.unassigned_replicators
      · rw [if_pos h1] at h ⊢
        by_cases h2 : region_lengths c.replication_state = []
        · rw [if_pos h2] at h ⊢
          exact h
        · rw [if_neg h2] at h ⊢
          by_cases h3 : draws t = true
          · rw [if_pos h3] at h ⊢
            exact ih m _ _ _ h (by omega)
          · rw [if_neg h3] at h ⊢
            exact ih m _ _ _ h (by omega)
      · rw [if_neg h1] at h ⊢
        exact h

theorem driverFuel_mono (draws : Nat → Bool) (posOf : Cell → Nat → Nat) :
    ∀ fuel fuel' c t c'', driverFuel draws posOf c t fuel = some c'' → fuel ≤ fuel' →
      driverFuel draws posOf c t fuel' = some c'' := by
  intro fuel
  induction fuel with
  | zero =>
      intro fuel' c t c'' h _
      unfold driverFuel at h
      by_cases hc : c.is_fully_replicated = true
      · rw [if_pos hc] at h
        cases fuel' with
        | zero =>
            unfold driverFuel
            rw [if_pos hc]
            exact h
        | succ m =>
            unfold driverFuel
            rw [if_pos hc]
            exact h
      · rw [if_neg hc] at h
        exact Option.noConfusion h
  | succ n ih =>
      intro fuel' c t c'' h hle
      obtain ⟨m, rfl⟩ : ∃ m, fuel' = m + 1 := ⟨fuel' - 1, by omega⟩
      unfold driverFuel at h ⊢
      by_cases hc : c.is_fully_replicated = true
      · rw [if_pos hc] at h ⊢
        exact h
      · rw [if_neg hc] at h ⊢
        cases ha : assignFuel draws posOf c t (n + 1) with
        | none =>
            rw [ha] at h
            exact Option.noConfusion h
        | some r =>
            obtain ⟨c1, t1⟩ := r
            rw [ha] at h
            rw [assignFuel_mono draws posOf (n + 1) (m + 1) c t (c1, t1) ha (by omega)]
            exact ih m _ _ _ h (by omega)

theorem assignFuel_reach (draws : Nat → Bool) (posOf : Cell → Nat → Nat)
    (hval : ValidSampler posOf) :
    ∀ fuel c t r, assignFuel draws posOf c t fuel = some r → ReachableFrom c r.1 := by
  intro fuel
  induction fuel with
  | zero => intro c t r h; exact Option.noConfusion h
  | succ n ih =>
      intro c t r h
      unfold assignFuel at h
      by_cases h1 : 0 < c.unassigned_replicators
      · rw [if_pos h1] at h
        by_cases h2 : region_lengths c.replication_state = []
        · rw [if_pos h2] at h
          cases h
          exact Relation.ReflTransGen.refl
        · rw [if_neg h2] at h
          by_cases h3 : draws t = true
          · rw [if_pos h3] at h
            exact Relation.ReflTransGen.head
              (EngineStep.insert h1 (hval c t h2)) (ih _ _ _ h)
          · rw [if_neg h3] at h
            exact ih _ _ _ h
      · rw [if_neg h1] at h
        cases h
        exact Relation.ReflTransGen.refl

theorem regionLengthsGo_nil_getD : ∀ (v : List Nat) (ind : Nat),
    regionLengthsGo v ind = [] → ∀ i, (ind + i) % 2 = 1 → v.getD i 0 = 0 := by
  intro v
  induction v with
  | nil => intro ind _ i _; simp
  | cons a rest ih =>
      intro ind h i hi
      unfold regionLengthsGo at h
      by_cases hc : ind % 2 ≠ 0 ∧ a ≠ 0
      · rw [if_pos hc] at h
        exact absurd h (by simp)
      · rw [if_neg hc] at h
        cases i with
        | zero =>
            have ha : a = 0 := by
              push_neg at hc
              exact hc (by omega)
            simpa using ha
        | succ i' =>
            have := ih (ind + 1) h i' (by omega)
            simpa using this

theorem allOddZero_of_getD : ∀ v : List Nat, (∀ i, i % 2 = 1 → v.getD i 0 = 0) →
    allOddZero v = true
  | [], _ => rfl
  | [_], _ => rfl
  | a :: b :: rest, h => by
      simp only [allOddZero, Bool.and_eq_true, decide_eq_true_eq]
      refine ⟨by simpa using h 1 (by omega), ?_⟩
      exact allOddZero_of_getD rest (fun i hi => by simpa using h (i + 2) (by omega))

/-- Converse of `region_lengths_nil`: when `WeightedIndex::new` fails, the
track really is complete. -/
theorem region_nil_complete (v : List Nat) (h : region_lengths v = []) :
    allOddZero v = true :=
  allOddZero_of_getD v (fun i hi => regionLengthsGo_nil_getD v 0 h i (by omega))

/-- An insertion increases the replicated total by exactly one unit. -/
theorem insert_evenSum (gl k : Nat) (c : Cell) (p : Nat) (hD : DriverInv gl k c)
    (hu : 0 < c.unassigned_replicators) (hvp : ValidInsertPos c.replication_state p) :
    evenSum (c.insert_origin p).replication_state =
      evenSum c.replication_state + 1 := by
  obtain ⟨⟨hg, hlen, hsum, htz⟩, hW1, hW2⟩ := hD
  obtain ⟨j, hpar, hseg⟩ := hvp
  have hjpos : 0 < c.replication_state.getD j 0 := by
    obtain ⟨hj, hlo, hhi⟩ := hseg
    omega
  have hjlt : j < c.replication_state.length - 2 * c.unassigned_replicators :=
    trail_pos_lt _ _ _ htz hjpos
  have hroom : j + 3 ≤ c.replication_state.length := by omega
  have hio := insertState_oddSum c.replication_state p j hseg hpar hroom
    (htz _ (by omega)) (htz _ (by omega))
  have his := insertState_sum c.replication_state p j hseg hroom
    (htz _ (by omega)) (htz _ (by omega))
  have hsplit := sum_eq_evenSum_add_oddSum c.replication_state
  have hsplit' := sum_eq_evenSum_add_oddSum (insertState c.replication_state p)
  rw [insert_origin_replication_state]
  omega

/-- Cell-level strict convergence: with a positive rate, something left to
replicate and at least one replicated stretch, one `replicate_and_merge`
call strictly shrinks the unreplicated total. -/
theorem grow_strict (gl k : Nat) (c : Cell) (hrate : 1 ≤ c.replication_rate)
    (hD : DriverInv gl k c) (hodd : oddSum c.replication_state ≠ 0)
    (hev : evenSum c.replication_state ≠ 0) :
    oddSum c.replicate_and_merge.replication_state < oddSum c.replication_state := by
  obtain ⟨⟨hg, hlen, hsum, htz⟩, hW1, hW2⟩ := hD
  have hmp := mergePass_strict c.replication_rate c.replication_state hrate
    (by omega) hW1 hW2 hodd hev
  have hlc := leadingCollapse_oddSum (mergePass c.replication_rate c.replication_state).1
    (by rw [mergePass_length]; omega)
  rw [grow_replication_state]
  show oddSum (leadingCollapse (mergePass c.replication_rate c.replication_state).1) <
    oddSum c.replication_state
  omega

theorem assignFuel_evenSum (draws : Nat → Bool) (posOf : Cell → Nat → Nat)
    (hval : ValidSampler posOf) (gl k : Nat) :
    ∀ fuel c t r, assignFuel draws posOf c t fuel = some r →
      DriverInv gl k c → 0 < c.unassigned_replicators →
      region_lengths c.replication_state ≠ [] →
      0 < evenSum r.1.replication_state := by
  intro fuel
  induction fuel with
  | zero => intro c t r h _ _ _; exact Option.noConfusion h
  | succ n ih =>
      intro c t r h hD hu hreg
      unfold assignFuel at h
      rw [if_pos hu, if_neg hreg] at h
      by_cases h3 : draws t = true
      · rw [if_pos h3] at h
        have hvp := hval c t hreg
        have hstep := step_props gl k c (c.insert_origin (posOf c t))
          (EngineStep.insert hu hvp) hD
        have hins := insert_evenSum gl k c (posOf c t) hD hu hvp
        have hreach := assignFuel_reach draws posOf hval n _ _ _ h
        have hmono := (reach_props gl k _ _ hreach hstep.1).2.2.1
        omega
      · rw [if_neg h3] at h
        exact ih c (t + 1) r h hD hu hreg

/-- With infinitely many accepting draws the sampling loop of
`assign_replicators` always terminates (either the quota runs out or the
weight vector is empty). -/
theorem assignFuel_terminates (draws : Nat → Bool) (posOf : Cell → Nat → Nat)
    (hacc : AcceptsInfinitely draws) :
    ∀ (n : Nat) (c : Cell), c.unassigned_replicators ≤ n → ∀ t,
      ∃ fuel r, assignFuel draws posOf c t fuel = some r := by
  intro n
  induction n with
  | zero =>
      intro c hu t
      exact ⟨1, (c, t), by unfold assignFuel; rw [if_neg (by omega)]⟩
  | succ n ih =>
      intro c hu t
      by_cases hu0 : c.unassigned_replicators = 0
      · exact ⟨1, (c, t), by unfold assignFuel; rw [if_neg (by omega)]⟩
      · by_cases hreg : region_lengths c.replication_state = []
        · exact ⟨1, (c, t), by unfold assignFuel; rw [if_pos (by omega), if_pos hreg]⟩
        · obtain ⟨s, hs, hacc_s⟩ := hacc t
          have walk : ∀ d t', t' ≤ s → s < t' + d →
              ∃ fuel r, assignFuel draws posOf c t' fuel = some r := by
            intro d
            induction d with
            | zero => intro t' h1 h2; omega
            | succ d ihd =>
                intro t' h1 h2
                by_cases hdT : draws t' = true
                · obtain ⟨fuel1, r, hr⟩ := ih (c.insert_origin (posOf c t'))
                    (by rw [insert_origin_quota]; omega) (t' + 1)
                  refine ⟨fuel1 + 1, r, ?_⟩
                  unfold assignFuel
                  rw [if_pos (by omega), if_neg hreg, if_pos hdT]
                  exact hr
                · by_cases hts : t' = s
                  · rw [hts] at hdT
                    exact absurd hacc_s hdT
                  · obtain ⟨fuel1, r, hr⟩ := ihd (t' + 1) (by omega) (by omega)
                    refine ⟨fuel1 + 1, r, ?_⟩
                    unfold assignFuel
                    rw [if_pos (by omega), if_neg hreg, if_neg hdT]
                    exact hr
          exact walk (s + 1 - t) t hs (by omega)

/-- Termination of the replicating loop, by induction on the unreplicated
total: each driver iteration strictly decreases it until completion. -/
theorem driver_terminates_aux (gl k : Nat) (draws : Nat → Bool)
    (posOf : Cell → Nat → Nat)
    (hacc : AcceptsInfinitely draws) (hval : ValidSampler posOf) :
    ∀ N c t, oddSum c.replication_state ≤ N → DriverInv gl k c →
      1 ≤ c.replication_rate →
      (0 < evenSum c.replication_state ∨ 0 < c.unassigned_replicators ∨
        c.is_fully_replicated = true) →
      RunTerminates draws posOf c t := by
  intro N
  induction N with
  | zero =>
      intro c t hN _ _ _
      have hc : c.is_fully_replicated = true :=
        (allOddZero_iff_oddSum _).mpr (by omega)
      exact ⟨0, c, by unfold driverFuel; rw [if_pos hc]⟩
  | succ N ih =>
      intro c t hN hD hrate hE
      by_cases hc : c.is_fully_replicated = true
      · exact ⟨0, c, by unfold driverFuel; rw [if_pos hc]⟩
      · have hodd : oddSum c.replication_state ≠ 0 := by
          intro h0
          exact hc ((allOddZero_iff_oddSum _).mpr h0)
        have hreg : region_lengths c.replication_state ≠ [] := by
          intro hr
          exact hc (region_nil_complete _ hr)
        obtain ⟨fuelA, r, hA⟩ :=
          assignFuel_terminates draws posOf hacc c.unassigned_replicators c
            (Nat.le_refl _) t
        obtain ⟨c1, t1⟩ := r
        have hreach := assignFuel_reach draws posOf hval fuelA c t (c1, t1) hA
        obtain ⟨hD1, hodd1, hev1, hrate1⟩ := reach_props gl k c c1 hreach hD
        have hev1' : 0 < evenSum c1.replication_state := by
          rcases hE with h | h | h
          · omega
          · exact assignFuel_evenSum draws posOf hval gl k fuelA c t (c1, t1) hA hD h hreg
          · exact absurd h hc
        have hD2 : DriverInv gl k c1.replicate_and_merge :=
          (step_props gl k c1 _ EngineStep.grow hD1).1
        have hev2 : evenSum c1.replication_state ≤
            evenSum c1.replicate_and_merge.replication_state :=
          (step_props gl k c1 _ EngineStep.grow hD1).2.2.1
        have hrate2 : c1.replicate_and_merge.replication_rate = c1.replication_rate :=
          rfl
        have hlt : oddSum c1.replicate_and_merge.replication_state <
            oddSum c.replication_state := by
          by_cases h0 : oddSum c1.replication_state = 0
          · have := grow_oddSum_cell c1
            omega
          · have := grow_strict gl k c1 (by omega) hD1 h0 (by omega)
            omega
        obtain ⟨fuelB, c'', hB⟩ := ih c1.replicate_and_merge t1 (by omega) hD2
          (by omega) (Or.inl (by omega))
        refine ⟨max fuelA fuelB + 1, c'', ?_⟩
        unfold driverFuel
        rw [if_neg hc,
          assignFuel_mono draws posOf fuelA (max fuelA fuelB + 1) c t (c1, t1) hA
            (by omega)]
        exact driverFuel_mono draws posOf fuelB (max fuelA fuelB) _ t1 c'' hB (by omega)

/-- A concrete executable sampler: the coordinate of the start of the
first non-empty unreplicated segment. -/
def samplerPos (v : List Nat) : Nat :=
  match (List.range v.length).find? (fun j => decide (j % 2 = 1 ∧ v.getD j 0 ≠ 0)) with
  | some j => sumTo v j
  | none => 0

theorem samplerPos_valid (v : List Nat) (h : region_lengths v ≠ []) :
    ValidInsertPos v (samplerPos v) := by
  have hoz : allOddZero v ≠ true := fun ha => h (region_lengths_nil v ha)
  have hodd : oddSum v ≠ 0 := by
    intro h0
    exact hoz ((allOddZero_iff_oddSum v).mpr h0)
  obtain ⟨j, hjp, hjpos, hjlen⟩ := oddSum_pos_witness v hodd
  have hfind : ((List.range v.length).find?
      (fun j => decide (j % 2 = 1 ∧ v.getD j 0 ≠ 0))).isSome = true := by
    rw [List.find?_isSome]
    refine ⟨j, List.mem_range.mpr hjlen, ?_⟩
    simp only [decide_eq_true_eq]
    exact ⟨hjp, by omega⟩
  obtain ⟨j0, hj0⟩ := Option.isSome_iff_exists.mp hfind
  have hp := List.find?_some hj0
  simp only [decide_eq_true_eq] at hp
  have hjlt : j0 < v.length := List.mem_range.mp (List.mem_of_find?_eq_some hj0)
  unfold samplerPos
  rw [hj0]
  show ValidInsertPos v (sumTo v j0)
  exact ⟨j0, hp.1, hjlt, Nat.le_refl _, by have := hp.2; omega⟩

/-- C8 counterexample.  The claim quantifies over *every* random stream,
but the accept/reject loop inside `assign_replicators` (`src/main.rs`
lines 88-94) retries unboundedly: on the stream whose every acceptance
draw fails (`rng_obj.gen::<f64>() > 0.9` never holds), the driver loop
diverges even though the replication rate is positive — `driverFuel`
returns `none` for every amount of fuel. -/
theorem C8_counterexample :
    0 < (Cell.new 10 1 1).replication_rate ∧
      ¬ RunTerminates (fun _ => false) (fun _ _ => 0) (Cell.new 10 1 1) 0 := by
  refine ⟨by decide, ?_⟩
  rintro ⟨fuel, c', hc⟩
  rw [driverFuel_stuck (fun _ _ => 0) fuel 0] at hc
  exact Option.noConfusion hc

/-- C8 (amended): for every configuration with at least one replicator and
a positive replication rate, and every random stream whose acceptance
draws succeed infinitely often (true with probability one for the fixed
firing probability 0.1) with positions always drawn inside non-empty
unreplicated segments, the replicating loop of the driver terminates: the
unreplicated total is non-increasing on every grow/merge call and strictly
decreases once a replicated stretch exists, origin placement is bounded by
the fork quota, and `driverFuel` reaches a fully replicated cell with some
finite fuel. -/
theorem C8_termination (gl k rate : Nat) (hk : 1 ≤ k) (hrate : 1 ≤ rate)
    (draws : Nat → Bool) (posOf : Cell → Nat → Nat)
    (hacc : AcceptsInfinitely draws) (hval : ValidSampler posOf) (t : Nat) :
    RunTerminates draws posOf (Cell.new gl k rate) t := by
  refine driver_terminates_aux gl k draws posOf hacc hval
    (oddSum (Cell.new gl k rate).replication_state) (Cell.new gl k rate) t
    (Nat.le_refl _) (driverInv_new gl k rate) ?_ ?_
  · show 1 ≤ rate
    exact hrate
  · refine Or.inr (Or.inl ?_)
    show 0 < k
    omega

/-- Witness for C8: the always-accepting stream with the executable
first-gap sampler drives a fresh 10-unit, one-replicator, rate-1 cell to
completion. -/
theorem C8_termination_witness :
    AcceptsInfinitely (fun _ => true) ∧
      ValidSampler (fun c _ => samplerPos c.replication_state) ∧
      RunTerminates (fun _ => true) (fun c _ => samplerPos c.replication_state)
        (Cell.new 10 1 1) 0 :=
  have hacc : AcceptsInfinitely (fun _ => true) := fun t => ⟨t, Nat.le_refl t, rfl⟩
  have hval : ValidSampler (fun c _ => samplerPos c.replication_state) :=
    fun c _ h => samplerPos_valid _ h
  ⟨hacc, hval,
    C8_termination 10 1 1 (by decide) (by decide) (fun _ => true)
      (fun c _ => samplerPos c.replication_state) hacc hval 0⟩

end RustyReplicon
